import Mathlib

/-!
Verification of the CTF parser (`torch/csrc/api/src/data/ctf/ctf_parser.cpp`
together with its header, here `src/unnamed/part_000`, and the line reader).

The embedding works on one line buffer at a time, exactly as the C++ does:
the legacy `Reader::ReadLine` places one line in `m_buffer` with its
terminating newline included and a NUL byte after it, and `LoadSamples`
scans the buffer through a cursor `m_buffer_pos`.  A buffer is modelled as
`List Char`; reading past its end yields the NUL character, matching the
NUL the reader writes after the line.  Numeric values are modelled as `ℚ`
(the C++ stores every value in a `double` field; binary64 rounding of
non-integral decimals and `std::stoll`/`std::stoull` overflow exceptions
are outside the model, and no theorem below depends on them).
-/

/-! ## Character predicates (header `part_000`) -/

/-- C++ `isNamePrefix`: `c == '|'`. -/
def isNameStart (c : Char) : Bool := c == '|'

/-- C++ `isCommentPrefix`: same test as the name marker. -/
def isCommentStart (c : Char) : Bool := isNameStart c

/-- C++ `isCommentSuffix`: `c == '#'`. -/
def isCommentSuffix (c : Char) : Bool := c == '#'

/-- C++ `isDecimalPoint`. -/
def isDecimalPoint (c : Char) : Bool := c == '.'

/-- C++ `isSparseValueDelimiter`: `c == ':'`. -/
def isSparseValueDelimiter (c : Char) : Bool := c == ':'

/-- C++ `isDigit`: `'0' <= c && c <= '9'`. -/
def isDigit (c : Char) : Bool := 48 ≤ c.toNat && c.toNat ≤ 57

/-- C++ `isAlpha`. -/
def isAlpha (c : Char) : Bool :=
  (97 ≤ c.toNat && c.toNat ≤ 122) || (65 ≤ c.toNat && c.toNat ≤ 90)

/-- C++ `isSign`: `c == '+' || c == '-'`. -/
def isSign (c : Char) : Bool := c == '+' || c == '-'

/-- C++ `isNumber`: digit, decimal point or sign. -/
def isNumber (c : Char) : Bool := isDigit c || isDecimalPoint c || isSign c

/-- C++ `isValueDelimiter`: space or tab. -/
def isValueDelimiter (c : Char) : Bool := c == ' ' || c == '\t'

/-- C++ `isEOL`: carriage return or line feed. -/
def isEOL (c : Char) : Bool := c == '\r' || c == '\n'

/-- C++ `isEscapeDelimiter`: single or double quote. -/
def isEscapeDelimiter (c : Char) : Bool :=
  c == Char.ofNat 39 || c == Char.ofNat 34

/-! ## Buffer access helpers -/

/-- Read the buffer at an index; past the end this yields NUL, the byte the
reader stores after the line. -/
def getC (buf : List Char) (i : Nat) : Char := buf.getD i (Char.ofNat 0)

/-- The characters of `buf` at indices `[i, j)`. -/
def bufSlice (buf : List Char) (i j : Nat) : List Char := (buf.take j).drop i

/-- The recursion of `skipWhile`, structural on the remaining buffer
length so that it computes by kernel reduction. -/
def skipWhileAux (p : Char → Bool) (buf : List Char) : Nat → Nat → Nat
  | 0, pos => pos
  | fuel + 1, pos =>
    if p (getC buf pos) then skipWhileAux p buf fuel (pos + 1) else pos

/-- Advance a cursor over all consecutive characters satisfying `p`
(the `while (p(m_buffer[runner])) ++runner;` loops).  The scan stops at the
end of the buffer, where the stored NUL fails every predicate used. -/
def skipWhile (p : Char → Bool) (buf : List Char) (pos : Nat) : Nat :=
  skipWhileAux p buf (buf.length - pos) pos

/-! ## Numeric conversions (`std::stoull`, `std::stoll`, `std::stod`) -/

/-- Value of a string of decimal digit characters, most significant first. -/
def digitsToNat (ds : List Char) : Nat :=
  ds.foldl (fun a c => a * 10 + (c.toNat - 48)) 0

/-- `SIZE_MAX` on the 64-bit target: the sentinel for "no sparse index". -/
def SIZE_MAX : Nat := 2 ^ 64 - 1

/-- `std::stoull` on the scanned bufSlice: optional sign, then a nonempty run
of digits (the conversion stops at the first non-digit).  A leading minus
wraps modulo `2^64`.  With no digits the C++ call raises
`std::invalid_argument`, modelled as `none` (no claim depends on it). -/
def stoullModel (s : List Char) : Option Nat :=
  match s with
  | [] => none
  | c :: r =>
    let body := if c == '+' || c == '-' then r else s
    let ds := body.takeWhile isDigit
    if ds.isEmpty then none
    else if c == '-' then some ((2 ^ 64 - digitsToNat ds % 2 ^ 64) % 2 ^ 64)
    else some (digitsToNat ds)

/-- `std::stoll` on the scanned bufSlice: optional sign, then a nonempty run
of digits.  Out-of-range magnitudes (which raise in C++) are not modelled;
no digits is modelled as `none`. -/
def stollModel (s : List Char) : Option Int :=
  match s with
  | [] => none
  | c :: r =>
    let body := if c == '+' || c == '-' then r else s
    let ds := body.takeWhile isDigit
    if ds.isEmpty then none
    else if c == '-' then some (-(digitsToNat ds : Int))
    else some (digitsToNat ds)

/-- `std::stod` on the scanned bufSlice: optional sign, integer digits, an
optional point followed by fraction digits; the parse stops at the first
character that fits neither.  The exact decimal value is kept (binary64
rounding is not modelled); no digits at all is `none`. -/
def stodModel (s : List Char) : Option ℚ :=
  match s with
  | [] => none
  | c :: r =>
    let neg := c == '-'
    let body := if c == '+' || c == '-' then r else s
    let ip := body.takeWhile isDigit
    let after := body.drop ip.length
    let fp : List Char :=
      match after with
      | d :: r2 => if d == '.' then r2.takeWhile isDigit else []
      | [] => []
    let hasPoint : Bool :=
      match after with
      | d :: _ => d == '.'
      | [] => false
    if ip.isEmpty && (!hasPoint || fp.isEmpty) then none
    else
      let mag : ℚ := (digitsToNat ip : ℚ) + (digitsToNat fp : ℚ) / (10 : ℚ) ^ fp.length
      some (if neg then -mag else mag)

/-! ## CTF data model (header `part_000`) -/

/-- C++ `enum CTFValueType`. -/
inductive CTFValueType where
  | Unknown
  | Float
  | Double
  | Float16
  | Int8
  | Int16
deriving DecidableEq, Repr

/-- C++ `struct CTFValue`: type tag, numeric value (a `double` field,
modelled as `ℚ`), and sparse index (`SIZE_MAX` when absent). -/
structure CTFValue where
  type : CTFValueType
  value : ℚ
  index : Nat
deriving DecidableEq, Repr

/-- C++ `struct CTFSample`: stream name and ordered values. -/
structure CTFSample where
  input_name : List Char
  values : List CTFValue
deriving DecidableEq, Repr

/-- C++ `struct CTFSequence`. -/
structure CTFSequence where
  sequence_id : Nat
  samples : List CTFSample
  comment : List Char
deriving DecidableEq, Repr

/-- The `std::map<CTFSequenceID, CTFSequence>` inside `CTFDataset`:
an association list kept sorted by key in strictly ascending order, which
is both the lookup structure and the iteration order of the map. -/
abbrev CTFMap := List (Nat × CTFSequence)

/-- A default-constructed `CTFSequence` (what `std::map::operator[]`
inserts before the parser assigns its fields). -/
def defaultSeq : CTFSequence := { sequence_id := 0, samples := [], comment := [] }

/-- `m_dataset->sequences[k]` followed by a mutation `f` of the entry:
inserts a default-constructed record first when the key is absent,
keeping the keys sorted exactly as `std::map` does. -/
def mapUpd (m : CTFMap) (k : Nat) (f : CTFSequence → CTFSequence) : CTFMap :=
  match m with
  | [] => [(k, f defaultSeq)]
  | (k1, v) :: rest =>
    if k < k1 then (k, f defaultSeq) :: (k1, v) :: rest
    else if k == k1 then (k1, f v) :: rest
    else (k1, v) :: mapUpd rest k f

/-- `sequences[id].sequence_id = id;` -/
def mapEnsure (m : CTFMap) (k : Nat) : CTFMap :=
  mapUpd m k (fun s => { s with sequence_id := k })

/-- `sequences[id].samples.push_back(sample);` -/
def mapPush (m : CTFMap) (k : Nat) (sample : CTFSample) : CTFMap :=
  mapUpd m k (fun s => { s with samples := s.samples ++ [sample] })

/-- `sequences[id].comment = comment;` -/
def mapSetComment (m : CTFMap) (k : Nat) (c : List Char) : CTFMap :=
  mapUpd m k (fun s => { s with comment := c })

/-! ## `CTFParser::GetValue` -/

/-- The mutable locals of `GetValue`'s scanning loop: `is_float`,
`has_signal`, and the sparse-index bookkeeping (`beg_index` is the C++
`SIZE_MAX` sentinel, modelled as `none`). -/
structure VScan where
  isFloat : Bool
  hasSignal : Bool
  begIndex : Option Nat
  endIndex : Nat
  begValue : Nat
deriving Repr

/-- One step of the bookkeeping inside `GetValue`'s scan loop: record a
sign, a decimal point, or a sparse delimiter (`beg_index = beg_value;
end_index = runner; beg_value = end_index + 1`). -/
def vstep (c : Char) (runner : Nat) (st : VScan) : VScan :=
  let st1 := if isSign c then { st with hasSignal := true } else st
  let st2 := if isDecimalPoint c then { st1 with isFloat := true } else st1
  if isSparseValueDelimiter c then
    { st2 with begIndex := some st2.begValue, endIndex := runner,
               begValue := runner + 1 }
  else st2

/-- The recursion of `valueLoop`, structural on the remaining buffer
length (past the end of the buffer the stored NUL fails the loop
condition, so the loop stops there). -/
def valueLoopAux (buf : List Char) : Nat → Nat → VScan → Option (Nat × VScan)
  | 0, runner, st => some (runner, st)
  | fuel + 1, runner, st =>
    if isNumber (getC buf runner) || isSparseValueDelimiter (getC buf runner) then
      if isSign (getC buf runner) && st.hasSignal then none
      else if isDecimalPoint (getC buf runner) && st.isFloat then none
      else valueLoopAux buf fuel (runner + 1) (vstep (getC buf runner) runner st)
    else some (runner, st)

/-- The `while (isNumber || isSparseValueDelimiter)` loop of `GetValue`:
returns `none` on a second sign or second decimal point (the early
`return false`), otherwise the stop position together with the final
state. -/
def valueLoop (buf : List Char) (runner : Nat) (st : VScan) : Option (Nat × VScan) :=
  valueLoopAux buf (buf.length - runner) runner st

/-- The cursor after `GetValue`'s scan loop: the code overwrites the stop
character with NUL and steps past it unless the stop character is an EOL
(`if (!isEOL(m_buffer[end_value])) m_buffer[runner++] = 0;`), then skips
value delimiters.  The overwritten position lies behind every later read
of the line, so the write itself needs no further modelling here. -/
def vRunner (buf : List Char) (endValue : Nat) : Nat :=
  skipWhile isValueDelimiter buf
    (if ! isEOL (getC buf endValue) then endValue + 1 else endValue)

/-- The sparse index of a scanned value: `SIZE_MAX` when no `:` was seen,
otherwise `std::stoull` applied to the slice `[beg_index, end_index)`
(the code writes NUL at `end_index` before converting). -/
def vIndex (buf : List Char) (st : VScan) : Option Nat :=
  match st.begIndex with
  | none => some SIZE_MAX
  | some bi => stoullModel (bufSlice buf bi st.endIndex)

/-- The numeric value of a scanned token: `std::stod` or `std::stoll` on
the slice `[beg_value, end_value)` (terminated by the written NUL, or by
the EOL character at which both conversions stop anyway). -/
def vValue (buf : List Char) (endValue : Nat) (st : VScan) : Option ℚ :=
  if st.isFloat then stodModel (bufSlice buf st.begValue endValue)
  else (stollModel (bufSlice buf st.begValue endValue)).map (fun i => (i : ℚ))

/-- The tail of `CTFParser::GetValue` after the scan loop: the
"after a value there must be another value, a comment or EOL" check,
then the conversions and the assembled `CTFValue`. -/
def finishValue (buf : List Char) (endValue : Nat) (st : VScan) :
    Option (CTFValue × Nat) :=
  if ! isNumber (getC buf (vRunner buf endValue))
      && ! isCommentStart (getC buf (vRunner buf endValue))
      && ! isEOL (getC buf (vRunner buf endValue)) then none
  else
    match vIndex buf st, vValue buf endValue st with
    | some idx, some q =>
      some ({ type := if st.isFloat then CTFValueType.Double else CTFValueType.Int16,
              value := q, index := idx }, vRunner buf endValue)
    | _, _ => none

/-- C++ `CTFParser::GetValue`.  On success returns the parsed value and
the new cursor. -/
def GetValue (buf : List Char) (pos : Nat) : Option (CTFValue × Nat) :=
  if ! isNumber (getC buf pos) then none
  else
    match valueLoop buf pos ⟨false, false, none, 0, pos⟩ with
    | none => none
    | some (endValue, st) => finishValue buf endValue st

/-! ## Cursor progress lemmas (used for termination of the outer loops) -/

theorem skipWhileAux_ge (p : Char → Bool) (buf : List Char) :
    ∀ fuel pos, pos ≤ skipWhileAux p buf fuel pos := by
  intro fuel
  induction fuel with
  | zero => intro pos; exact Nat.le_refl pos
  | succ n ih =>
    intro pos
    simp only [skipWhileAux]
    split
    · exact Nat.le_trans (Nat.le_succ pos) (ih (pos + 1))
    · exact Nat.le_refl pos

theorem skipWhile_ge (p : Char → Bool) (buf : List Char) (pos : Nat) :
    pos ≤ skipWhile p buf pos :=
  skipWhileAux_ge p buf (buf.length - pos) pos

theorem skipWhileAux_le (p : Char → Bool) (buf : List Char) :
    ∀ fuel pos, skipWhileAux p buf fuel pos ≤ pos + fuel := by
  intro fuel
  induction fuel with
  | zero => intro pos; exact Nat.le_refl pos
  | succ n ih =>
    intro pos
    simp only [skipWhileAux]
    split
    · have := ih (pos + 1)
      omega
    · omega

theorem skipWhile_le (p : Char → Bool) (buf : List Char) (pos : Nat)
    (h : pos ≤ buf.length) : skipWhile p buf pos ≤ buf.length := by
  have := skipWhileAux_le p buf (buf.length - pos) pos
  unfold skipWhile
  omega

theorem skipWhile_step (p : Char → Bool) (buf : List Char) (pos : Nat)
    (h : pos < buf.length) :
    skipWhile p buf pos =
      if p (getC buf pos) then skipWhile p buf (pos + 1) else pos := by
  unfold skipWhile
  have h1 : buf.length - pos = (buf.length - (pos + 1)) + 1 := by omega
  rw [h1]
  simp only [skipWhileAux]

theorem skipWhile_of_neg {p : Char → Bool} {buf : List Char} {pos : Nat}
    (h : p (getC buf pos) = false) : skipWhile p buf pos = pos := by
  unfold skipWhile
  cases hn : buf.length - pos with
  | zero => rfl
  | succ n => simp [skipWhileAux, h]

theorem valueLoopAux_ge (buf : List Char) :
    ∀ fuel runner st e st',
      valueLoopAux buf fuel runner st = some (e, st') → runner ≤ e := by
  intro fuel
  induction fuel with
  | zero =>
    intro runner st e st' h
    simp only [valueLoopAux, Option.some.injEq, Prod.mk.injEq] at h
    omega
  | succ n ih =>
    intro runner st e st' h
    simp only [valueLoopAux] at h
    split at h
    · split at h
      · exact absurd h (by simp)
      · split at h
        · exact absurd h (by simp)
        · exact Nat.le_trans (Nat.le_succ runner) (ih (runner + 1) _ e st' h)
    · simp only [Option.some.injEq, Prod.mk.injEq] at h
      omega

theorem valueLoopAux_le (buf : List Char) :
    ∀ fuel runner st e st',
      valueLoopAux buf fuel runner st = some (e, st') → e ≤ runner + fuel := by
  intro fuel
  induction fuel with
  | zero =>
    intro runner st e st' h
    simp only [valueLoopAux, Option.some.injEq, Prod.mk.injEq] at h
    omega
  | succ n ih =>
    intro runner st e st' h
    simp only [valueLoopAux] at h
    split at h
    · split at h
      · exact absurd h (by simp)
      · split at h
        · exact absurd h (by simp)
        · have := ih (runner + 1) _ e st' h
          omega
    · simp only [Option.some.injEq, Prod.mk.injEq] at h
      omega

theorem valueLoop_ge (buf : List Char) (runner : Nat) (st : VScan)
    (e : Nat) (st' : VScan) (h : valueLoop buf runner st = some (e, st')) :
    runner ≤ e :=
  valueLoopAux_ge buf (buf.length - runner) runner st e st' h

theorem valueLoop_le (buf : List Char) (runner : Nat) (st : VScan)
    (e : Nat) (st' : VScan) (h : valueLoop buf runner st = some (e, st'))
    (hr : runner ≤ buf.length) : e ≤ buf.length := by
  have := valueLoopAux_le buf (buf.length - runner) runner st e st' h
  omega

theorem valueLoop_step (buf : List Char) (runner : Nat) (st : VScan)
    (h : runner < buf.length) :
    valueLoop buf runner st =
      if isNumber (getC buf runner) || isSparseValueDelimiter (getC buf runner) then
        if isSign (getC buf runner) && st.hasSignal then none
        else if isDecimalPoint (getC buf runner) && st.isFloat then none
        else valueLoop buf (runner + 1) (vstep (getC buf runner) runner st)
      else some (runner, st) := by
  unfold valueLoop
  have h1 : buf.length - runner = (buf.length - (runner + 1)) + 1 := by omega
  rw [h1]
  simp only [valueLoopAux]

theorem valueLoop_stop {buf : List Char} {runner : Nat} {st : VScan}
    (h1 : isNumber (getC buf runner) = false)
    (h2 : isSparseValueDelimiter (getC buf runner) = false) :
    valueLoop buf runner st = some (runner, st) := by
  unfold valueLoop
  cases hn : buf.length - runner with
  | zero => rfl
  | succ n => simp [valueLoopAux, h1, h2]

theorem getC_lt_of_pred {p : Char → Bool} (hnul : p (Char.ofNat 0) = false)
    {buf : List Char} {pos : Nat} (h : p (getC buf pos) = true) :
    pos < buf.length := by
  by_contra hge
  have : getC buf pos = Char.ofNat 0 := by
    simp only [getC]
    rw [List.getD_eq_default]
    omega
  rw [this, hnul] at h
  exact absurd h (by simp)

theorem isNumber_nul : isNumber (Char.ofNat 0) = false := by decide

theorem vRunner_ge (buf : List Char) (endValue : Nat) :
    endValue ≤ vRunner buf endValue := by
  unfold vRunner
  split
  · have := skipWhile_ge isValueDelimiter buf (endValue + 1)
    omega
  · exact skipWhile_ge isValueDelimiter buf endValue

theorem finishValue_ge {buf : List Char} {endValue : Nat} {st : VScan}
    {v : CTFValue} {p2 : Nat} (h : finishValue buf endValue st = some (v, p2)) :
    endValue ≤ p2 := by
  rw [finishValue] at h
  split at h
  · exact absurd h (by simp)
  · split at h
    · simp only [Option.some.injEq, Prod.mk.injEq] at h
      have := vRunner_ge buf endValue
      omega
    · exact absurd h (by simp)

theorem GetValue_lt {buf : List Char} {pos : Nat} {v : CTFValue} {p2 : Nat}
    (h : GetValue buf pos = some (v, p2)) : pos < p2 := by
  rw [GetValue] at h
  split at h
  · exact absurd h (by simp)
  · rename_i hnum
    simp only [Bool.not_eq_true', Bool.not_eq_false] at hnum
    have hlt : pos < buf.length := getC_lt_of_pred isNumber_nul hnum
    split at h
    · exact absurd h (by simp)
    · rename_i endValue st hloop
      -- the first loop iteration consumes the character at `pos`
      have hstep : valueLoop buf pos ⟨false, false, none, 0, pos⟩
          = valueLoop buf (pos + 1) (vstep (getC buf pos) pos ⟨false, false, none, 0, pos⟩) := by
        rw [valueLoop_step buf pos _ hlt]
        rw [if_pos (by simp [hnum]), if_neg (by simp [Bool.and_eq_true]),
          if_neg (by simp [Bool.and_eq_true])]
      rw [hstep] at hloop
      have hge := valueLoop_ge buf (pos + 1) _ endValue st hloop
      have := finishValue_ge h
      omega

theorem GetValue_lt_len {buf : List Char} {pos : Nat} {x : CTFValue × Nat}
    (h : GetValue buf pos = some x) : pos < buf.length := by
  rw [GetValue] at h
  split at h
  · exact absurd h (by simp)
  · rename_i hnum
    simp only [Bool.not_eq_true', Bool.not_eq_false] at hnum
    exact getC_lt_of_pred isNumber_nul hnum

/-! ## `CTFParser::GetValues`, `GetName`, `GetSample` -/

theorem GetValue_none_of_nul {buf : List Char} {pos : Nat}
    (h : isNumber (getC buf pos) = false) : GetValue buf pos = none := by
  rw [GetValue, if_pos (by simp [h])]

/-- The loop condition of `CTFParser::GetValues`: keep reading while the
cursor is not at a name marker, a comment marker, an EOL, or the byte
count of the file (`m_buffer_pos != m_reader->FileSize()`). -/
def moreValues (buf : List Char) (fsize : Nat) (pos : Nat) : Bool :=
  ! isNameStart (getC buf pos) && ! isCommentStart (getC buf pos)
    && ! isEOL (getC buf pos) && pos != fsize

/-- The recursion of `GetValuesLoop`, structural on fuel; the loop
advances the cursor by at least one per iteration and the cursor never
exceeds `buf.length + 1`, so starting fuel `buf.length + 2 - pos` never
runs out (`GetValuesLoop_step` below recovers the loop equation). -/
def GetValuesLoopAux (buf : List Char) (fsize : Nat) :
    Nat → Nat → List CTFValue → Option (List CTFValue × Nat)
  | 0, pos, acc => if moreValues buf fsize pos then none else some (acc, pos)
  | fuel + 1, pos, acc =>
    if moreValues buf fsize pos then
      match GetValue buf pos with
      | none => none
      | some (v, p2) => GetValuesLoopAux buf fsize fuel p2 (acc ++ [v])
    else some (acc, pos)

/-- The collection loop of `CTFParser::GetValues`. -/
def GetValuesLoop (buf : List Char) (fsize : Nat) (pos : Nat)
    (acc : List CTFValue) : Option (List CTFValue × Nat) :=
  GetValuesLoopAux buf fsize (buf.length + 2 - pos) pos acc

/-- C++ `CTFParser::GetValues`: collect values, then consume the EOL
characters.  On failure nothing is appended and the cursor stays. -/
def GetValues (buf : List Char) (fsize : Nat) (pos : Nat) :
    Option (List CTFValue × Nat) :=
  match GetValuesLoop buf fsize pos [] with
  | none => none
  | some (vs, p2) => some (vs, skipWhile isEOL buf p2)

theorem GetValuesLoopAux_irrel (buf : List Char) (fsize : Nat) :
    ∀ f1 f2 pos acc, buf.length + 2 - pos ≤ f1 → buf.length + 2 - pos ≤ f2 →
      GetValuesLoopAux buf fsize f1 pos acc = GetValuesLoopAux buf fsize f2 pos acc := by
  intro f1
  induction f1 with
  | zero =>
    intro f2 pos acc h1 h2
    cases f2 with
    | zero => rfl
    | succ n =>
      have hge : buf.length < pos := by omega
      have hnul : getC buf pos = Char.ofNat 0 := by
        simp only [getC]
        rw [List.getD_eq_default]
        omega
      simp only [GetValuesLoopAux]
      split
      · rw [GetValue_none_of_nul (by rw [hnul]; decide)]
      · rfl
  | succ n ih =>
    intro f2 pos acc h1 h2
    cases f2 with
    | zero =>
      have hge : buf.length < pos := by omega
      have hnul : getC buf pos = Char.ofNat 0 := by
        simp only [getC]
        rw [List.getD_eq_default]
        omega
      simp only [GetValuesLoopAux]
      split
      · rw [GetValue_none_of_nul (by rw [hnul]; decide)]
      · rfl
    | succ m =>
      simp only [GetValuesLoopAux]
      split
      · cases hgv : GetValue buf pos with
        | none => rfl
        | some x =>
          obtain ⟨v, p2⟩ := x
          have hlt := GetValue_lt hgv
          exact ih m p2 (acc ++ [v]) (by omega) (by omega)
      · rfl

theorem GetValuesLoop_step (buf : List Char) (fsize : Nat) (pos : Nat)
    (acc : List CTFValue) :
    GetValuesLoop buf fsize pos acc =
      if moreValues buf fsize pos then
        match GetValue buf pos with
        | none => none
        | some (v, p2) => GetValuesLoop buf fsize p2 (acc ++ [v])
      else some (acc, pos) := by
  unfold GetValuesLoop
  cases hn : buf.length + 2 - pos with
  | zero =>
    have hge : buf.length < pos := by omega
    have hnul : getC buf pos = Char.ofNat 0 := by
      simp only [getC]
      rw [List.getD_eq_default]
      omega
    simp only [GetValuesLoopAux]
    split
    · rw [GetValue_none_of_nul (by rw [hnul]; decide)]
    · rfl
  | succ n =>
    simp only [GetValuesLoopAux]
    split
    · cases hgv : GetValue buf pos with
      | none => rfl
      | some x =>
        obtain ⟨v, p2⟩ := x
        have hlt := GetValue_lt hgv
        exact GetValuesLoopAux_irrel buf fsize n (buf.length + 2 - p2) p2 (acc ++ [v])
          (by omega) (by omega)
    · rfl

theorem GetValuesLoopAux_ge (buf : List Char) (fsize : Nat) :
    ∀ fuel pos acc vs p2,
      GetValuesLoopAux buf fsize fuel pos acc = some (vs, p2) → pos ≤ p2 := by
  intro fuel
  induction fuel with
  | zero =>
    intro pos acc vs p2 h
    simp only [GetValuesLoopAux] at h
    split at h
    · exact absurd h (by simp)
    · simp only [Option.some.injEq, Prod.mk.injEq] at h
      omega
  | succ n ih =>
    intro pos acc vs p2 h
    simp only [GetValuesLoopAux] at h
    split at h
    · split at h
      · exact absurd h (by simp)
      · rename_i v p3 hgv
        have h1 := GetValue_lt hgv
        have h2 := ih p3 _ vs p2 h
        omega
    · simp only [Option.some.injEq, Prod.mk.injEq] at h
      omega

theorem GetValuesLoop_ge (buf : List Char) (fsize : Nat) (pos : Nat)
    (acc : List CTFValue) (vs : List CTFValue) (p2 : Nat)
    (h : GetValuesLoop buf fsize pos acc = some (vs, p2)) : pos ≤ p2 :=
  GetValuesLoopAux_ge buf fsize _ pos acc vs p2 h

theorem GetValues_ge {buf : List Char} {fsize pos : Nat} {vs : List CTFValue}
    {p2 : Nat} (h : GetValues buf fsize pos = some (vs, p2)) : pos ≤ p2 := by
  rw [GetValues] at h
  split at h
  · exact absurd h (by simp)
  · rename_i vs1 p3 hloop
    simp only [Option.some.injEq, Prod.mk.injEq] at h
    have h1 := GetValuesLoop_ge buf fsize pos [] vs1 p3 hloop
    have h2 := skipWhile_ge isEOL buf p3
    omega

/-- C++ `CTFParser::GetName`: a name marker, then consecutive digits and
letters, then value delimiters, and the next character must start a
value. -/
def GetName (buf : List Char) (pos : Nat) : Option (List Char × Nat) :=
  if ! isNameStart (getC buf pos) then none
  else
    if ! isNumber (getC buf (skipWhile isValueDelimiter buf
        (skipWhile (fun c => isDigit c || isAlpha c) buf (pos + 1)))) then none
    else some
      (bufSlice buf (pos + 1) (skipWhile (fun c => isDigit c || isAlpha c) buf (pos + 1)),
       skipWhile isValueDelimiter buf
         (skipWhile (fun c => isDigit c || isAlpha c) buf (pos + 1)))

theorem GetName_lt {buf : List Char} {pos : Nat} {nm : List Char} {p2 : Nat}
    (h : GetName buf pos = some (nm, p2)) : pos < p2 := by
  rw [GetName] at h
  split at h
  · exact absurd h (by simp)
  · split at h
    · exact absurd h (by simp)
    · simp only [Option.some.injEq, Prod.mk.injEq] at h
      have h1 := skipWhile_ge (fun c => isDigit c || isAlpha c) buf (pos + 1)
      have h2 := skipWhile_ge isValueDelimiter buf
        (skipWhile (fun c => isDigit c || isAlpha c) buf (pos + 1))
      omega

/-- C++ `CTFParser::GetSample`: `GetName(sample.input_name) &&
GetValues(sample.values)` on a freshly constructed sample. -/
def GetSample (buf : List Char) (fsize : Nat) (pos : Nat) :
    Option (CTFSample × Nat) :=
  match GetName buf pos with
  | none => none
  | some (nm, p1) =>
    match GetValues buf fsize p1 with
    | none => none
    | some (vs, p2) => some ({ input_name := nm, values := vs }, p2)

theorem GetSample_lt {buf : List Char} {fsize pos : Nat} {s : CTFSample}
    {p2 : Nat} (h : GetSample buf fsize pos = some (s, p2)) : pos < p2 := by
  rw [GetSample] at h
  split at h
  · exact absurd h (by simp)
  · rename_i nm p1 hnm
    split at h
    · exact absurd h (by simp)
    · rename_i vs p3 hvs
      simp only [Option.some.injEq, Prod.mk.injEq] at h
      have h1 := GetName_lt hnm
      have h2 := GetValues_ge hvs
      omega

/-! ## `CTFParser::GetComment` -/

/-- The quote counter update of `GetComment`: after stepping the cursor,
a quote character at the new position bumps the count. -/
def qcStep (buf : List Char) (i : Nat) (qc : Nat) : Nat :=
  if isEscapeDelimiter (getC buf i) then qc + 1 else qc

/-- The scan loop of `GetComment`: starting at the first comment
character, run to the EOL, but stop right after stepping onto a name
marker seen with an even quote count.  Note the C++ checks the quote and
marker only at the position `++runner` steps onto, so the character at
the start position is never examined by either check.  (The loop is also
cut at the end of the buffer; the buffers built by the reader always end
with an EOL byte, at which the loop stops anyway.) -/
def commentLoopAux (buf : List Char) : Nat → Nat → Nat → Nat
  | 0, runner, _ => runner
  | fuel + 1, runner, qc =>
    if isEOL (getC buf runner) then runner
    else
      if isNameStart (getC buf (runner + 1))
          && (qcStep buf (runner + 1) qc) % 2 == 0 then runner + 1
      else commentLoopAux buf fuel (runner + 1) (qcStep buf (runner + 1) qc)

def commentLoop (buf : List Char) (runner qc : Nat) : Nat :=
  commentLoopAux buf (buf.length - runner) runner qc

theorem commentLoopAux_ge (buf : List Char) :
    ∀ fuel runner qc, runner ≤ commentLoopAux buf fuel runner qc := by
  intro fuel
  induction fuel with
  | zero => intro runner qc; exact Nat.le_refl runner
  | succ n ih =>
    intro runner qc
    simp only [commentLoopAux]
    split
    · exact Nat.le_refl runner
    · split
      · omega
      · exact Nat.le_trans (Nat.le_succ runner) (ih (runner + 1) _)

theorem commentLoop_ge (buf : List Char) (runner qc : Nat) :
    runner ≤ commentLoop buf runner qc :=
  commentLoopAux_ge buf (buf.length - runner) runner qc

theorem commentLoop_step (buf : List Char) (runner qc : Nat)
    (h : runner < buf.length) :
    commentLoop buf runner qc =
      if isEOL (getC buf runner) then runner
      else
        if isNameStart (getC buf (runner + 1))
            && (qcStep buf (runner + 1) qc) % 2 == 0 then runner + 1
        else commentLoop buf (runner + 1) (qcStep buf (runner + 1) qc) := by
  unfold commentLoop
  have h1 : buf.length - runner = (buf.length - (runner + 1)) + 1 := by omega
  rw [h1]
  simp only [commentLoopAux]

/-- The comment string built by `GetComment`: the characters from the
first comment character up to the stop position; when the stop character
is not an EOL the code first writes NUL over the preceding position
(`m_buffer[end_comment-1] = 0`), and that NUL byte ends up inside the
extracted string. -/
def commentContent (buf : List Char) (beg endC : Nat) : List Char :=
  if ! isEOL (getC buf endC) then bufSlice buf beg (endC - 1) ++ [Char.ofNat 0]
  else bufSlice buf beg endC

/-- C++ `CTFParser::GetComment`: requires `|` then `#`, scans the comment,
then consumes EOL characters. -/
def GetComment (buf : List Char) (pos : Nat) : Option (List Char × Nat) :=
  if ! isCommentStart (getC buf pos) then none
  else if ! isCommentSuffix (getC buf (pos + 1)) then none
  else some (commentContent buf (pos + 2) (commentLoop buf (pos + 2) 0),
             skipWhile isEOL buf (commentLoop buf (pos + 2) 0))

theorem GetComment_lt {buf : List Char} {pos : Nat} {c : List Char} {p2 : Nat}
    (h : GetComment buf pos = some (c, p2)) : pos < p2 := by
  rw [GetComment] at h
  split at h
  · exact absurd h (by simp)
  · split at h
    · exact absurd h (by simp)
    · simp only [Option.some.injEq, Prod.mk.injEq] at h
      have h1 := commentLoop_ge buf (pos + 2) 0
      have h2 := skipWhile_ge isEOL buf (commentLoop buf (pos + 2) 0)
      omega

/-! ## `CTFParser::GetSequenceId` and `LoadSamples` -/

/-- `end_seq_id`: the end of the run of digits starting the line. -/
def seqIdEnd (buf : List Char) : Nat := skipWhile isDigit buf 0

/-- The cursor of `GetSequenceId` after the digits and the following value
delimiters. -/
def seqIdRunner (buf : List Char) : Nat :=
  skipWhile isValueDelimiter buf (seqIdEnd buf)

/-- C++ `CTFParser::GetSequenceId`, called with the cursor at the start of
the line: digits, then delimiters, then a mandatory name marker.  On
success it returns the id (`std::stoull` reads the digits from the start
of the buffer up to the NUL the code writes at `end_seq_id`), the new
cursor, and the buffer as mutated by that NUL write — when the digits are
followed directly by the name marker, the write destroys the marker. -/
def GetSequenceId (buf : List Char) : Option (Nat × Nat × List Char) :=
  if ! isDigit (getC buf 0) then none
  else if ! isNameStart (getC buf (seqIdRunner buf)) then none
  else some (digitsToNat (bufSlice buf 0 (seqIdEnd buf)), seqIdRunner buf,
             buf.set (seqIdEnd buf) (Char.ofNat 0))

/-- The per-line body of `CTFParser::LoadSamples`'s inner
`while (m_buffer_pos < len)` loop, with the dataset map threaded through.
Each iteration tries a sample and falls back to a comment; both branches
re-establish `sequences[id].sequence_id = id`, a sample with a nonempty
name is appended, and a nonempty comment overwrites the previous one.
When neither a sample nor a comment parses, the code clears the dataset
and throws; modelled as `none`. -/
def lineLoopAux (buf : List Char) (fsize len id : Nat) :
    Nat → Nat → CTFMap → Option CTFMap
  | 0, pos, m => if pos < len then none else some m
  | fuel + 1, pos, m =>
    if pos < len then
      match GetSample buf fsize pos with
      | some (sample, p2) =>
        lineLoopAux buf fsize len id fuel p2
          (if sample.input_name.isEmpty then mapEnsure m id
           else mapPush (mapEnsure m id) id sample)
      | none =>
        match GetComment buf pos with
        | none => none
        | some (comment, p2) =>
          lineLoopAux buf fsize len id fuel p2
            (if comment.isEmpty then mapEnsure m id
             else mapSetComment (mapEnsure m id) id comment)
    else some m

/-- The inner loop itself; every iteration advances the cursor, so the
fuel `len - pos` never runs out (`lineLoop_step` below recovers the loop
equation). -/
def lineLoop (buf : List Char) (fsize len id : Nat) (pos : Nat) (m : CTFMap) :
    Option CTFMap :=
  lineLoopAux buf fsize len id (len - pos) pos m

theorem lineLoopAux_irrel (buf : List Char) (fsize len id : Nat) :
    ∀ f1 f2 pos m, len - pos ≤ f1 → len - pos ≤ f2 →
      lineLoopAux buf fsize len id f1 pos m = lineLoopAux buf fsize len id f2 pos m := by
  intro f1
  induction f1 with
  | zero =>
    intro f2 pos m h1 h2
    cases f2 with
    | zero => rfl
    | succ n =>
      simp only [lineLoopAux]
      rw [if_neg (by omega), if_neg (by omega)]
  | succ n ih =>
    intro f2 pos m h1 h2
    cases f2 with
    | zero =>
      simp only [lineLoopAux]
      rw [if_neg (by omega), if_neg (by omega)]
    | succ k =>
      simp only [lineLoopAux]
      split
      · cases hs : GetSample buf fsize pos with
        | some x =>
          obtain ⟨sample, p2⟩ := x
          have := GetSample_lt hs
          exact ih k p2 _ (by omega) (by omega)
        | none =>
          cases hc : GetComment buf pos with
          | none => rfl
          | some x =>
            obtain ⟨comment, p2⟩ := x
            have := GetComment_lt hc
            exact ih k p2 _ (by omega) (by omega)
      · rfl

theorem lineLoop_step (buf : List Char) (fsize len id : Nat) (pos : Nat)
    (m : CTFMap) :
    lineLoop buf fsize len id pos m =
      if pos < len then
        match GetSample buf fsize pos with
        | some (sample, p2) =>
          lineLoop buf fsize len id p2
            (if sample.input_name.isEmpty then mapEnsure m id
             else mapPush (mapEnsure m id) id sample)
        | none =>
          match GetComment buf pos with
          | none => none
          | some (comment, p2) =>
            lineLoop buf fsize len id p2
              (if comment.isEmpty then mapEnsure m id
               else mapSetComment (mapEnsure m id) id comment)
      else some m := by
  unfold lineLoop
  cases hn : len - pos with
  | zero =>
    simp only [lineLoopAux]
    rw [if_neg (by omega), if_neg (by omega)]
  | succ n =>
    simp only [lineLoopAux]
    split
    · cases hs : GetSample buf fsize pos with
      | some x =>
        obtain ⟨sample, p2⟩ := x
        have := GetSample_lt hs
        exact lineLoopAux_irrel buf fsize len id n (len - p2) p2 _ (by omega) (by omega)
      | none =>
        cases hc : GetComment buf pos with
        | none => rfl
        | some x =>
          obtain ⟨comment, p2⟩ := x
          have := GetComment_lt hc
          exact lineLoopAux_irrel buf fsize len id n (len - p2) p2 _ (by omega) (by omega)
    · rfl

/-- The sequence-id decision at the start of each line: an explicit id
(setting `has_initial_sequence_id`), else the previous id when one was
ever explicit, else `++previous_sequence_id`. -/
def stepSeqId (buf : List Char) (prev : Nat) (hasInit : Bool) : Nat × Bool :=
  match GetSequenceId buf with
  | some (sid, _, _) => (sid, true)
  | none => (if hasInit then prev else prev + 1, hasInit)

/-- The reader hands `LoadSamples` each line with its newline included
(`Reader::ReadLine` of the legacy reader). -/
def toBuffer (line : List Char) : List Char := line ++ ['\n']

/-- The buffer seen by the inner loop: `GetSequenceId` has already applied
its NUL write when it succeeded. -/
def lineBufAfterId (buf : List Char) : List Char :=
  match GetSequenceId buf with
  | some (_, _, b2) => b2
  | none => buf

/-- The cursor at which the inner loop starts: after the sequence id when
one was read, else the start of the line. -/
def linePos0 (buf : List Char) : Nat :=
  match GetSequenceId buf with
  | some (_, p0, _) => p0
  | none => 0

/-- The outer loop of `CTFParser::LoadSamples` over the lines of the file,
threading the dataset map, `previous_sequence_id` and
`has_initial_sequence_id`. -/
def loadLoop (fsize : Nat) : List (List Char) → Nat → Bool → CTFMap →
    Option (CTFMap × Nat × Bool)
  | [], prev, hasInit, m => some (m, prev, hasInit)
  | line :: rest, prev, hasInit, m =>
    match lineLoop (lineBufAfterId (toBuffer line)) fsize (toBuffer line).length
        (stepSeqId (toBuffer line) prev hasInit).1 (linePos0 (toBuffer line)) m with
    | none => none
    | some m2 =>
      loadLoop fsize rest (stepSeqId (toBuffer line) prev hasInit).1
        (stepSeqId (toBuffer line) prev hasInit).2 m2

/-- `Reader::FileSize()`: the byte length of the file, each line counting
its newline. -/
def fileSize (lines : List (List Char)) : Nat :=
  (lines.map (fun l => l.length + 1)).sum

/-- C++ `CTFParser::LoadSamples` on a file given as its list of lines
(each without its newline; the file ends with a newline).  `none` models
the `throw` of the invalid-file error. -/
def LoadSamples (lines : List (List Char)) : Option CTFMap :=
  match loadLoop (fileSize lines) lines 0 false [] with
  | none => none
  | some (m, _, _) => some m

/-- The contents of `m_dataset->sequences` after `LoadSamples` finished or
threw: the code executes `m_dataset->sequences.clear()` immediately before
its only `throw`, so on failure the map is empty. -/
def datasetAfterParse (lines : List (List Char)) : CTFMap :=
  match LoadSamples lines with
  | some m => m
  | none => []

/-- The sequence id assigned to each line, in line order: the scan of
`stepSeqId` (the id logic of `LoadSamples`) over the line buffers. -/
def seqIdsAux : List (List Char) → Nat → Bool → List Nat
  | [], _, _ => []
  | b :: rest, prev, hasInit =>
    (stepSeqId b prev hasInit).1 ::
      seqIdsAux rest (stepSeqId b prev hasInit).1 (stepSeqId b prev hasInit).2

/-- The ids `LoadSamples` assigns to the lines of a file. -/
def seqIds (lines : List (List Char)) : List Nat :=
  seqIdsAux (lines.map toBuffer) 0 false

/-! ## The equality operators (`CTFValue/CTFSample/CTFSequence/CTFDataset
::operator==`) -/

/-- Three-iterator `std::equal`: compares the first range elementwise
against the second range starting at its begin, with no length check.
When the first range is longer than the second, the C++ reads past the
end of the second range (undefined behaviour); that out-of-range
comparison is modelled as `false`, and every theorem about these
operators stays inside the defined region. -/
def stdEqual (f : α → β → Bool) : List α → List β → Bool
  | [], _ => true
  | _ :: _, [] => false
  | a :: as, b :: bs => f a b && stdEqual f as bs

/-- C++ `CTFValue::operator==`: index, type and value. -/
def ctfValueEq (a b : CTFValue) : Bool :=
  a.index == b.index && a.type == b.type && a.value == b.value

/-- C++ `CTFSample::operator==`: the name and `std::equal` over this
sample's values against the other's. -/
def ctfSampleEq (a b : CTFSample) : Bool :=
  a.input_name == b.input_name && stdEqual ctfValueEq a.values b.values

/-- C++ `CTFSequence::operator==`: the id and `std::equal` over this
sequence's samples against the other's (the comment is not compared). -/
def ctfSequenceEq (a b : CTFSequence) : Bool :=
  a.sequence_id == b.sequence_id && stdEqual ctfSampleEq a.samples b.samples

/-- C++ `CTFDataset::operator==`: `std::equal` over this dataset's
`(id, sequence)` map entries against the other's (`std::pair` equality:
key equality and `CTFSequence::operator==`). -/
def ctfDatasetEq (a b : CTFMap) : Bool :=
  stdEqual (fun p q => p.1 == q.1 && ctfSequenceEq p.2 q.2) a b

/-! ## Textual rendering (the non-debug `operator<<` overloads)

The value is printed through `os << ctf_value.value` on a `double`,
i.e. C++ default formatting: `%g` with precision 6.  `formatQ` models
that formatting exactly over the rational model (for integer-valued
data below `2^53` this is exactly what the C++ prints). -/

/-- Decimal digits of a natural number, most significant first. -/
def natDigitsL (n : Nat) : List Char := Nat.toDigits 10 n

/-- Drop trailing `'0'` characters. -/
def trimZeros (ds : List Char) : List Char :=
  (ds.reverse.dropWhile (fun c => c == '0')).reverse

/-- Floor of a rational, computably. -/
def qFloor (r : ℚ) : Int := Int.fdiv r.num r.den

/-- Round to the nearest integer, ties to even. -/
def roundHalfEven (r : ℚ) : Int :=
  if r - (qFloor r : ℚ) < 1 / 2 then qFloor r
  else if r - (qFloor r : ℚ) > 1 / 2 then qFloor r + 1
  else if qFloor r % 2 == 0 then qFloor r else qFloor r + 1

/-- Largest `k ≤ k0 + fuel` with `10 ^ k ≤ n`, by linear search. -/
def expUp (n : ℚ) (k : Nat) : Nat → Nat
  | 0 => k
  | fuel + 1 => if (10 : ℚ) ^ (k + 1) ≤ n then expUp n (k + 1) fuel else k

/-- Least `j ≥ k` with `n * 10 ^ j ≥ 1`, by linear search. -/
def expDown (n : ℚ) (k : Nat) : Nat → Nat
  | 0 => k
  | fuel + 1 => if n * (10 : ℚ) ^ k ≥ 1 then k else expDown n (k + 1) fuel

/-- `floor (log10 n)` for `n > 0`. -/
def decExp (n : ℚ) : Int :=
  if 1 ≤ n then (expUp n 0 (natDigitsL n.num.natAbs).length : Int)
  else -(expDown n 0 ((natDigitsL n.den).length + 1) : Int)

/-- `|q|` rounded to six significant digits: the mantissa as an integer
in `[10^5, 10^6)` paired with the decimal exponent. -/
def sixDigits (n : ℚ) : Nat × Int :=
  let X := decExp n
  let scaled : ℚ := if X ≤ 5 then n * (10 : ℚ) ^ ((5 - X).toNat)
                    else n / (10 : ℚ) ^ ((X - 5).toNat)
  let m := (roundHalfEven scaled).toNat
  if m = 1000000 then (100000, X + 1) else (m, X)

/-- The exponent suffix of scientific notation: `e`, a sign, and at least
two exponent digits. -/
def expSuffix (X : Int) : List Char :=
  ['e', if X < 0 then '-' else '+'] ++
    (if X.natAbs < 10 then '0' :: natDigitsL X.natAbs else natDigitsL X.natAbs)

/-- C++ default `ostream` formatting of a `double` (`%g`, precision 6)
over the rational model: fixed notation with at most six significant
digits and trailing zeros removed when the exponent lies in `[-4, 6)`,
otherwise scientific notation. -/
def formatQ (q : ℚ) : List Char :=
  if q = 0 then ['0']
  else
    (if q < 0 then ['-'] else []) ++
    (let md := sixDigits |q|
     let digits := natDigitsL md.1
     if -4 ≤ md.2 ∧ md.2 < 6 then
       if 0 ≤ md.2 then
         digits.take (md.2.toNat + 1) ++
           (if (trimZeros (digits.drop (md.2.toNat + 1))).isEmpty then []
            else '.' :: trimZeros (digits.drop (md.2.toNat + 1)))
       else
         '0' :: '.' :: List.replicate (md.2.natAbs - 1) '0' ++ trimZeros digits
     else
       digits.take 1 ++
         (if (trimZeros (digits.drop 1)).isEmpty then []
          else '.' :: trimZeros (digits.drop 1)) ++ expSuffix md.2)

/-- `operator<<(std::ostream&, const CTFValue&)` (non-debug): the index
and a colon when the index is not `SIZE_MAX`, then the value and a
space. -/
def renderValue (v : CTFValue) : List Char :=
  (if v.index != SIZE_MAX then natDigitsL v.index ++ [':'] else []) ++
    formatQ v.value ++ [' ']

/-- `operator<<(std::ostream&, const CTFSample&)` (non-debug):
`" |" << name << " "` then the values. -/
def renderSample (s : CTFSample) : List Char :=
  [' ', '|'] ++ s.input_name ++ [' '] ++ (s.values.map renderValue).flatten

/-- `operator<<(std::ostream&, const CTFSequence&)` (non-debug): the id,
the samples, then `" |#" << comment` when the comment is nonempty. -/
def renderSequence (sq : CTFSequence) : List Char :=
  natDigitsL sq.sequence_id ++ (sq.samples.map renderSample).flatten ++
    (if sq.comment.isEmpty then [] else [' ', '|', '#'] ++ sq.comment)

/-- `operator<<(std::ostream&, const CTFDataset&)` (non-debug): every map
entry in map order, each followed by `std::endl`. -/
def renderDataset (m : CTFMap) : List Char :=
  (m.map (fun p => renderSequence p.2 ++ ['\n'])).flatten

/-- Reading a rendered text back through the reader: the lines of a text
whose lines each end with a newline. -/
def splitLinesAux (acc : List Char) : List Char → List (List Char)
  | [] => if acc.isEmpty then [] else [acc]
  | c :: rest =>
    if c == '\n' then acc :: splitLinesAux [] rest
    else splitLinesAux (acc ++ [c]) rest

/-- Split a text into its newline-terminated lines. -/
def splitLines (text : List Char) : List (List Char) := splitLinesAux [] text

/-! ## Concrete inputs used by the claim theorems -/

/-- The single-quote character. -/
def quoteCh : Char := Char.ofNat 39

/-- The NUL character. -/
def nulCh : Char := Char.ofNat 0

/-- The line `|a 1` (no sequence id). -/
def lineImplicitA : List Char := ['|', 'a', ' ', '1']

/-- The line `|a 2` (no sequence id). -/
def lineImplicitB : List Char := ['|', 'a', ' ', '2']

/-- The file `1 |a 1`. -/
def c7File1 : List (List Char) := [['1', ' ', '|', 'a', ' ', '1']]

/-- The file `1 |a 1` / `2 |a 2`. -/
def c7File2 : List (List Char) :=
  [['1', ' ', '|', 'a', ' ', '1'], ['2', ' ', '|', 'a', ' ', '2']]

/-- The file `5 |a 1` / `3 |a 2`: a later line introduces a numerically
smaller explicit id than an earlier one. -/
def c8File : List (List Char) :=
  [['5', ' ', '|', 'a', ' ', '1'], ['3', ' ', '|', 'a', ' ', '2']]

/-- The file `|a 1000000`: a valid file whose value renders in scientific
notation. -/
def c9File : List (List Char) :=
  [['|', 'a', ' ', '1', '0', '0', '0', '0', '0', '0']]

/-- The buffer of the comment line `|#'a |b`: the quote is the first
comment character, and `|b` follows it. -/
def c6Buf : List Char := toBuffer ['|', '#', quoteCh, 'a', ' ', '|', 'b']

/-- Claim C3, counterexample.  The claim says that when no sequence id has
ever been established, an id-less line gets id `1` and every subsequent
id-less line repeats the last id used — so the file `|a 1` / `|a 2`
should get ids `[1, 1]`.  The parser instead increments the id for every
id-less line while no explicit id has been seen (`++previous_sequence_id`
in `LoadSamples`), producing `[1, 2]`. -/
theorem c3_counterexample :
    GetSequenceId (toBuffer lineImplicitA) = none ∧
    GetSequenceId (toBuffer lineImplicitB) = none ∧
    seqIds [lineImplicitA, lineImplicitB] = [1, 2] ∧
    ([1, 2] : List Nat) ≠ [1, 1] := by decide

/-- Claim C6, counterexample.  In the comment of `|#'a |b` the claim's
rule counts one quote character since the comment began, so the parity at
the embedded `|` is odd and the comment should run to end-of-line
(`'a |b`).  The code checks quotes only at the positions the loop steps
onto — the first comment character is never examined — so it sees an even
count and cuts the comment at the `|` (storing `'a` with its last
character overwritten by NUL). -/
theorem c6_counterexample :
    GetComment c6Buf 0 = some ([quoteCh, 'a', nulCh], 5) ∧
    (bufSlice c6Buf 2 5).count quoteCh = 1 ∧
    ([quoteCh, 'a', nulCh] : List Char) ≠ bufSlice c6Buf 2 7 := by decide

/-- Claim C7, counterexample.  The dataset of `1 |a 1` compares equal
(`CTFDataset::operator==` returns `true`) to the dataset of
`1 |a 1` / `2 |a 2`, although the two id sets differ and the second
dataset holds strictly more sequences: the three-iterator `std::equal`
never looks at the second dataset's extra entries. -/
theorem c7_counterexample :
    (LoadSamples c7File1).isSome = true ∧
    (LoadSamples c7File2).isSome = true ∧
    ctfDatasetEq (datasetAfterParse c7File1) (datasetAfterParse c7File2) = true ∧
    (datasetAfterParse c7File1).map Prod.fst = [1] ∧
    (datasetAfterParse c7File2).map Prod.fst = [1, 2] := by decide

/-- Claim C8, counterexample.  In the file `5 |a 1` / `3 |a 2` the order
of first appearance is `5, 3`, but the dataset lives in a `std::map`
ordered by key, so the rendering emits sequence `3` first. -/
theorem c8_counterexample :
    seqIds c8File = [5, 3] ∧
    (LoadSamples c8File).isSome = true ∧
    renderDataset (datasetAfterParse c8File) =
      ['3', ' ', '|', 'a', ' ', '2', ' ', '\n',
       '5', ' ', '|', 'a', ' ', '1', ' ', '\n'] := by with_unfolding_all decide

/-- Claim C9, counterexample.  The valid file `|a 1000000` parses to the
single value `1000000`, but the rendering prints the `double` with
default `%g` formatting as `1e+06`; re-parsing the rendered text
`1 |a 1e+06 ` stops the value token at `e` and reads two values `1` and
`6`, so the round-tripped dataset is not equal to the original (neither
by `CTFDataset::operator==` nor structurally). -/
theorem c9_counterexample :
    (LoadSamples c9File).isSome = true ∧
    renderDataset (datasetAfterParse c9File) =
      ['1', ' ', '|', 'a', ' ', '1', 'e', '+', '0', '6', ' ', '\n'] ∧
    LoadSamples (splitLines (renderDataset (datasetAfterParse c9File))) ≠
      some (datasetAfterParse c9File) ∧
    ctfDatasetEq (datasetAfterParse c9File)
      (datasetAfterParse (splitLines (renderDataset (datasetAfterParse c9File))))
      = false := by with_unfolding_all decide

/-! ## Sequence-id assignment (claims C3, C4) -/

theorem seqIdsAux_no_explicit (bufs : List (List Char)) :
    ∀ (prev i : Nat),
      (∀ j b, j ≤ i → bufs[j]? = some b → GetSequenceId b = none) →
      i < bufs.length →
      (seqIdsAux bufs prev false)[i]? = some (prev + i + 1) := by
  induction bufs with
  | nil => intro prev i h hi; simp at hi
  | cons b rest ih =>
    intro prev i h hi
    have hb : GetSequenceId b = none := h 0 b (by omega) (by simp)
    have hstep : stepSeqId b prev false = (prev + 1, false) := by
      simp [stepSeqId, hb]
    simp only [seqIdsAux, hstep]
    cases i with
    | zero => simp
    | succ i2 =>
      simp only [List.getElem?_cons_succ]
      have := ih (prev + 1) i2
        (fun j b2 hj hget => h (j + 1) b2 (by omega) (by simpa using hget))
        (by simp at hi; omega)
      rw [this]
      congr 1
      omega

theorem seqIdsAux_repeat (bufs : List (List Char)) :
    ∀ (prev : Nat) (hi : Bool) (i : Nat) (b : List Char),
      bufs[i + 1]? = some b → GetSequenceId b = none →
      (hi = true ∨ ∃ j b2, j ≤ i ∧ bufs[j]? = some b2 ∧ GetSequenceId b2 ≠ none) →
      (seqIdsAux bufs prev hi)[i + 1]? = (seqIdsAux bufs prev hi)[i]? := by
  induction bufs with
  | nil => intro prev hi i b hget; simp at hget
  | cons b0 rest ih =>
    intro prev hi i b hget himpl hdisj
    cases i with
    | zero =>
      -- the next line repeats the id of this one
      have hrest : rest[0]? = some b := by simpa using hget
      have h1 : (stepSeqId b0 prev hi).2 = true := by
        rcases hdisj with h | ⟨j, b2, hj, hget2, hex⟩
        · simp only [stepSeqId]
          cases hgs : GetSequenceId b0 <;> simp [h]
        · have hj0 : j = 0 := by omega
          subst hj0
          have heq : b0 = b2 := by simpa using hget2
          have hex0 : GetSequenceId b0 ≠ none := by rw [heq]; exact hex
          simp only [stepSeqId]
          cases hgs : GetSequenceId b0 with
          | none => exact absurd hgs hex0
          | some x => simp
      obtain ⟨b1, rest2, rfl⟩ : ∃ b1 rest2, rest = b1 :: rest2 := by
        cases rest with
        | nil => simp at hrest
        | cons x xs => exact ⟨x, xs, rfl⟩
      have hb1 : b1 = b := by simpa using hrest
      subst hb1
      simp only [seqIdsAux, List.getElem?_cons_succ, List.getElem?_cons_zero,
        Option.some.injEq]
      rw [h1]
      simp [stepSeqId, himpl]
    | succ i2 =>
      simp only [seqIdsAux, List.getElem?_cons_succ]
      apply ih
      · simpa using hget
      · exact himpl
      · rcases hdisj with h | ⟨j, b2, hj, hget2, hex⟩
        · left
          simp only [stepSeqId]
          cases hgs : GetSequenceId b0 <;> simp [h]
        · cases j with
          | zero =>
            left
            have heq : b0 = b2 := by simpa using hget2
            have hex0 : GetSequenceId b0 ≠ none := by rw [heq]; exact hex
            simp only [stepSeqId]
            cases hgs : GetSequenceId b0 with
            | none => exact absurd hgs hex0
            | some x => simp
          | succ j2 =>
            right
            exact ⟨j2, b2, by omega, by simpa using hget2, hex⟩

/-- Claim C3, amended: a line that does not start with digits followed
(after delimiters) by a name marker repeats the previous line's id once
an explicit id has been seen anywhere earlier in the file; while no
explicit id has ever been established, each such line instead gets a
fresh id, so the ids run `1, 2, 3, ...` from the start of the file until
the first explicit id. -/
theorem c3_implicit_id_assignment (lines : List (List Char)) (i : Nat)
    (line : List Char) (hline : lines[i]? = some line)
    (himpl : GetSequenceId (toBuffer line) = none) :
    ((∃ j lj, j < i ∧ lines[j]? = some lj ∧
        GetSequenceId (toBuffer lj) ≠ none) →
      0 < i ∧ (seqIds lines)[i]? = (seqIds lines)[i - 1]?) ∧
    ((∀ j lj, j < i → lines[j]? = some lj →
        GetSequenceId (toBuffer lj) = none) →
      (seqIds lines)[i]? = some (i + 1)) := by
  have hlen : i < lines.length := by
    rcases List.getElem?_eq_some_iff.1 hline with ⟨h, _⟩
    exact h
  constructor
  · rintro ⟨j, lj, hj, hlj, hex⟩
    have hi : 0 < i := by omega
    refine ⟨hi, ?_⟩
    obtain ⟨i2, rfl⟩ : ∃ i2, i = i2 + 1 := ⟨i - 1, by omega⟩
    have hmap : (lines.map toBuffer)[i2 + 1]? = some (toBuffer line) := by
      rw [List.getElem?_map, hline]
      rfl
    have := seqIdsAux_repeat (lines.map toBuffer) 0 false i2 (toBuffer line)
      hmap himpl
      (Or.inr ⟨j, toBuffer lj, by omega,
        by rw [List.getElem?_map, hlj]; rfl, by simpa using hex⟩)
    simpa [seqIds] using this
  · intro hall
    have hbufs : ∀ j b, j ≤ i → (lines.map toBuffer)[j]? = some b →
        GetSequenceId b = none := by
      intro j b hj hget
      rw [List.getElem?_map] at hget
      cases hlj : lines[j]? with
      | none => rw [hlj] at hget; simp at hget
      | some lj =>
        rw [hlj] at hget
        simp at hget
        rcases Nat.lt_or_ge j i with hlt | hge
        · rw [← hget]
          exact hall j lj hlt hlj
        · have : j = i := by omega
          subst this
          have heq2 : line = lj := by rw [hline] at hlj; simpa using hlj
          subst heq2
          rw [← hget]
          exact himpl
    have := seqIdsAux_no_explicit (lines.map toBuffer) 0 i hbufs
      (by simpa using hlen)
    simpa [seqIds] using this

/-- The file `7 |a 1` / `|a 1`: an explicit id followed by an id-less
line. -/
def c3WitnessFile : List (List Char) :=
  [['7', ' ', '|', 'a', ' ', '1'], lineImplicitA]

/-- Claim C3, witness for the amended theorem at a concrete file. -/
theorem c3_implicit_id_assignment_witness :
    0 < 1 ∧ (seqIds c3WitnessFile)[1]? = (seqIds c3WitnessFile)[0]? :=
  (c3_implicit_id_assignment c3WitnessFile 1 lineImplicitA (by decide)
    (by decide)).1
    ⟨0, ['7', ' ', '|', 'a', ' ', '1'], by omega, by decide, by decide⟩

theorem seqIdsAux_all_implicit :
    ∀ (bufs : List (List Char)) (prev : Nat),
      (∀ b ∈ bufs, GetSequenceId b = none) →
      seqIdsAux bufs prev false = List.range' (prev + 1) bufs.length := by
  intro bufs
  induction bufs with
  | nil => intro prev h; rfl
  | cons b rest ih =>
    intro prev h
    have hb : GetSequenceId b = none := h b (by simp)
    have hstep : stepSeqId b prev false = (prev + 1, false) := by
      simp [stepSeqId, hb]
    simp only [seqIdsAux, hstep, List.length_cons, List.range'_succ]
    rw [ih (prev + 1) (fun b2 hb2 => h b2 (by simp [hb2]))]

/-- Claim C4: in a file where no line carries an explicit sequence id,
the parser assigns the ids `1, 2, 3, ...` in line order, one new id per
line. -/
theorem c4_all_implicit_ids (lines : List (List Char))
    (h : ∀ l ∈ lines, GetSequenceId (toBuffer l) = none) :
    seqIds lines = List.range' 1 lines.length := by
  unfold seqIds
  rw [seqIdsAux_all_implicit (lines.map toBuffer) 0]
  · simp
  · intro b hb
    rcases List.mem_map.1 hb with ⟨l, hl, rfl⟩
    exact h l hl

/-- Claim C4, witness at a three-line file without explicit ids. -/
theorem c4_all_implicit_ids_witness :
    seqIds [lineImplicitA, lineImplicitB, lineImplicitA] = List.range' 1 3 :=
  c4_all_implicit_ids [lineImplicitA, lineImplicitB, lineImplicitA]
    (by decide)

/-! ## Characterizing the equality operators (claim C7) -/

/-- What `CTFSample::operator==` actually tests: equal names, and this
sample's values equal to an initial segment of the other's values. -/
def sampleMatches (a b : CTFSample) : Prop :=
  a.input_name = b.input_name ∧ a.values = b.values.take a.values.length

/-- What `CTFSequence::operator==` actually tests: equal ids, and this
sequence's samples matching the other's initial samples (the comment is
not examined). -/
def seqMatches (a b : CTFSequence) : Prop :=
  a.sequence_id = b.sequence_id ∧
    List.Forall₂ sampleMatches a.samples (b.samples.take a.samples.length)

/-- What `CTFDataset::operator==` actually tests: this dataset's
`(id, sequence)` entries pairwise matching an initial segment of the
other's entries. -/
def datasetMatches (d1 d2 : CTFMap) : Prop :=
  List.Forall₂ (fun p q => p.1 = q.1 ∧ seqMatches p.2 q.2) d1 (d2.take d1.length)

theorem stdEqual_iff_forall₂ (f : α → β → Bool) :
    ∀ (xs : List α) (ys : List β),
      stdEqual f xs ys = true ↔
        List.Forall₂ (fun a b => f a b = true) xs (ys.take xs.length) := by
  intro xs
  induction xs with
  | nil => intro ys; simp [stdEqual]
  | cons x xs ih =>
    intro ys
    cases ys with
    | nil => simp [stdEqual]
    | cons y ys =>
      simp only [stdEqual, Bool.and_eq_true, List.length_cons, List.take_succ_cons,
        List.forall₂_cons, ih]

theorem ctfValueEq_iff (a b : CTFValue) : ctfValueEq a b = true ↔ a = b := by
  cases a
  cases b
  simp only [ctfValueEq, Bool.and_eq_true, beq_iff_eq, CTFValue.mk.injEq]
  tauto

theorem stdEqual_valueEq_iff (vs ws : List CTFValue) :
    stdEqual ctfValueEq vs ws = true ↔ vs = ws.take vs.length := by
  rw [stdEqual_iff_forall₂]
  constructor
  · intro h
    have h2 : List.Forall₂ (· = ·) vs (ws.take vs.length) :=
      h.imp (fun a b ha => (ctfValueEq_iff a b).1 ha)
    rw [List.forall₂_eq_eq_eq] at h2
    exact h2
  · intro h
    have h2 : List.Forall₂ (· = ·) vs (ws.take vs.length) := by
      rw [← h]
      exact List.forall₂_refl _
    exact h2.imp (fun a b ha => (ctfValueEq_iff a b).2 ha)

theorem ctfSampleEq_iff (a b : CTFSample) :
    ctfSampleEq a b = true ↔ sampleMatches a b := by
  simp only [ctfSampleEq, Bool.and_eq_true, beq_iff_eq, stdEqual_valueEq_iff,
    sampleMatches]

theorem stdEqual_sampleEq_iff (xs ys : List CTFSample) :
    stdEqual ctfSampleEq xs ys = true ↔
      List.Forall₂ sampleMatches xs (ys.take xs.length) := by
  rw [stdEqual_iff_forall₂]
  constructor
  · exact fun h => h.imp (fun a b ha => (ctfSampleEq_iff a b).1 ha)
  · exact fun h => h.imp (fun a b ha => (ctfSampleEq_iff a b).2 ha)

theorem ctfSequenceEq_iff (a b : CTFSequence) :
    ctfSequenceEq a b = true ↔ seqMatches a b := by
  simp only [ctfSequenceEq, Bool.and_eq_true, beq_iff_eq, stdEqual_sampleEq_iff,
    seqMatches]

/-- Claim C7, amended: `CTFDataset::operator==` returns true iff this
dataset's `(id, sequence)` entries pairwise match an initial segment of
the other's entries, where a sequence matches by id and by its samples
pairwise matching an initial segment of the other's samples (comments
ignored), and a sample by name and by its values forming an initial
segment of the other's values.  In particular the operator is reflexive,
but a dataset also compares equal to one holding strictly more sequences;
when the first dataset is the longer one the C++ comparison reads past
the second's end (undefined behaviour, modelled as `false`). -/
theorem c7_dataset_eq_characterization (d1 d2 : CTFMap) :
    ctfDatasetEq d1 d2 = true ↔ datasetMatches d1 d2 := by
  unfold ctfDatasetEq datasetMatches
  rw [stdEqual_iff_forall₂]
  constructor
  · refine fun h => h.imp (fun a b ha => ?_)
    rw [Bool.and_eq_true] at ha
    exact ⟨by simpa using ha.1, (ctfSequenceEq_iff a.2 b.2).1 ha.2⟩
  · refine fun h => h.imp (fun a b ha => ?_)
    rw [Bool.and_eq_true]
    exact ⟨by simpa using ha.1, (ctfSequenceEq_iff a.2 b.2).2 ha.2⟩

/-! ## Map invariants (claims C8, C10) -/

theorem mapUpd_mapUpd (m : CTFMap) (k : Nat) (f g : CTFSequence → CTFSequence) :
    mapUpd (mapUpd m k f) k g = mapUpd m k (fun r => g (f r)) := by
  induction m with
  | nil => simp [mapUpd]
  | cons p rest ih =>
    obtain ⟨k1, v⟩ := p
    by_cases h1 : k < k1
    · simp [mapUpd, h1]
    · by_cases h2 : k = k1
      · subst h2
        simp [mapUpd, h1]
      · have hbeq : (k == k1) = false := by simp [h2]
        simp only [mapUpd, if_neg h1, hbeq, Bool.false_eq_true, if_false, ih]

theorem mapUpd_mem_keys (m : CTFMap) (k : Nat) (f : CTFSequence → CTFSequence) :
    ∀ x ∈ mapUpd m k f, x.1 = k ∨ x.1 ∈ m.map Prod.fst := by
  induction m with
  | nil =>
    intro x hx
    simp only [mapUpd, List.mem_singleton] at hx
    subst hx
    left
    rfl
  | cons p rest ih =>
    obtain ⟨k1, v⟩ := p
    intro x hx
    by_cases h1 : k < k1
    · simp only [mapUpd, if_pos h1, List.mem_cons] at hx
      rcases hx with rfl | rfl | hx2
      · left; rfl
      · right; simp
      · right
        simp only [List.map_cons, List.mem_cons]
        right
        exact List.mem_map_of_mem Prod.fst hx2
    · by_cases h2 : k = k1
      · subst h2
        have hbeq : (k == k) = true := by simp
        simp only [mapUpd, if_neg h1, hbeq, if_true, List.mem_cons] at hx
        rcases hx with rfl | hx
        · left; rfl
        · right
          simp only [List.map_cons, List.mem_cons]
          right
          exact List.mem_map_of_mem Prod.fst hx
      · have hbeq : (k == k1) = false := by simp [h2]
        simp only [mapUpd, if_neg h1, hbeq, Bool.false_eq_true, if_false,
          List.mem_cons] at hx
        rcases hx with rfl | hx
        · right; simp
        · rcases ih x hx with h | h
          · left; exact h
          · right
            simp only [List.map_cons, List.mem_cons]
            right
            exact h

theorem mapUpd_pairwise (m : CTFMap) (k : Nat) (f : CTFSequence → CTFSequence)
    (h : List.Pairwise (fun a b => a.1 < b.1) m) :
    List.Pairwise (fun a b => a.1 < b.1) (mapUpd m k f) := by
  induction m with
  | nil => simp [mapUpd]
  | cons p rest ih =>
    obtain ⟨k1, v⟩ := p
    rcases List.pairwise_cons.1 h with ⟨hhead, htail⟩
    by_cases h1 : k < k1
    · simp only [mapUpd, if_pos h1]
      refine List.pairwise_cons.2 ⟨?_, h⟩
      intro x hx
      rcases List.mem_cons.1 hx with rfl | hx2
      · exact h1
      · exact Nat.lt_trans h1 (hhead x hx2)
    · by_cases h2 : k = k1
      · subst h2
        have hbeq : (k == k) = true := by simp
        simp only [mapUpd, if_neg h1, hbeq, if_true]
        exact List.pairwise_cons.2 ⟨hhead, htail⟩
      · have hbeq : (k == k1) = false := by simp [h2]
        simp only [mapUpd, if_neg h1, hbeq, Bool.false_eq_true, if_false]
        refine List.pairwise_cons.2 ⟨?_, ih htail⟩
        intro x hx
        rcases mapUpd_mem_keys rest k f x hx with hk | hk
        · omega
        · rcases List.mem_map.1 hk with ⟨y, hy, hxy⟩
          have := hhead y hy
          omega

theorem mapInv_mapUpd (m : CTFMap) (k : Nat) (f : CTFSequence → CTFSequence)
    (h : ∀ p ∈ m, p.2.sequence_id = p.1) (hf : ∀ r, (f r).sequence_id = k) :
    ∀ p ∈ mapUpd m k f, p.2.sequence_id = p.1 := by
  induction m with
  | nil =>
    intro p hp
    simp only [mapUpd, List.mem_singleton] at hp
    subst hp
    exact hf defaultSeq
  | cons q rest ih =>
    obtain ⟨k1, v⟩ := q
    intro p hp
    by_cases h1 : k < k1
    · simp only [mapUpd, if_pos h1, List.mem_cons] at hp
      rcases hp with rfl | hp2
      · exact hf defaultSeq
      · exact h p (List.mem_cons.2 hp2)
    · by_cases h2 : k = k1
      · subst h2
        have hbeq : (k == k) = true := by simp
        simp only [mapUpd, if_neg h1, hbeq, if_true, List.mem_cons] at hp
        rcases hp with rfl | hp2
        · exact hf v
        · exact h p (by simp [hp2])
      · have hbeq : (k == k1) = false := by simp [h2]
        simp only [mapUpd, if_neg h1, hbeq, Bool.false_eq_true, if_false,
          List.mem_cons] at hp
        rcases hp with rfl | hp2
        · exact h (k1, v) (by simp)
        · exact ih (fun q hq => h q (by simp [hq])) p hp2

/-- Preservation of a map property through the inner line loop: the only
dataset mutations are `mapEnsure`, `mapPush` after `mapEnsure`, and
`mapSetComment` after `mapEnsure`, each at the line's sequence id. -/
theorem lineLoopAux_preserves (buf : List Char) (fsize len id : Nat)
    (P : CTFMap → Prop)
    (h1 : ∀ m, P m → P (mapEnsure m id))
    (h2 : ∀ m s, P m → P (mapPush (mapEnsure m id) id s))
    (h3 : ∀ m c, P m → P (mapSetComment (mapEnsure m id) id c)) :
    ∀ fuel pos m m', P m →
      lineLoopAux buf fsize len id fuel pos m = some m' → P m' := by
  intro fuel
  induction fuel with
  | zero =>
    intro pos m m' hP h
    simp only [lineLoopAux] at h
    split at h
    · exact absurd h (by simp)
    · simp only [Option.some.injEq] at h
      subst h
      exact hP
  | succ n ih =>
    intro pos m m' hP h
    simp only [lineLoopAux] at h
    by_cases hpos : pos < len
    · rw [if_pos hpos] at h
      cases hs : GetSample buf fsize pos with
      | some x =>
        obtain ⟨sample, p2⟩ := x
        rw [hs] at h
        refine ih p2 _ m' ?_ h
        split
        · exact h1 m hP
        · exact h2 m sample hP
      | none =>
        rw [hs] at h
        cases hc : GetComment buf pos with
        | none =>
          rw [hc] at h
          exact absurd h (by simp)
        | some x =>
          obtain ⟨comment, p2⟩ := x
          rw [hc] at h
          refine ih p2 _ m' ?_ h
          split
          · exact h1 m hP
          · exact h3 m comment hP
    · rw [if_neg hpos] at h
      simp only [Option.some.injEq] at h
      subst h
      exact hP

/-- Preservation of a map property through the outer loop of
`LoadSamples`. -/
theorem loadLoop_preserves (fsize : Nat) (P : CTFMap → Prop)
    (h1 : ∀ m id, P m → P (mapEnsure m id))
    (h2 : ∀ m id s, P m → P (mapPush (mapEnsure m id) id s))
    (h3 : ∀ m id c, P m → P (mapSetComment (mapEnsure m id) id c)) :
    ∀ (lines : List (List Char)) (prev : Nat) (hi : Bool) (m : CTFMap)
      (out : CTFMap × Nat × Bool), P m →
      loadLoop fsize lines prev hi m = some out → P out.1 := by
  intro lines
  induction lines with
  | nil =>
    intro prev hi m out hP h
    simp only [loadLoop, Option.some.injEq] at h
    subst h
    exact hP
  | cons line rest ih =>
    intro prev hi m out hP h
    simp only [loadLoop] at h
    cases hline : lineLoop (lineBufAfterId (toBuffer line)) fsize
        (toBuffer line).length (stepSeqId (toBuffer line) prev hi).1
        (linePos0 (toBuffer line)) m with
    | none =>
      rw [hline] at h
      exact absurd h (by simp)
    | some m2 =>
      rw [hline] at h
      refine ih _ _ m2 out ?_ h
      exact lineLoopAux_preserves _ fsize _ _ P (fun m3 => h1 m3 _)
        (fun m3 s => h2 m3 _ s) (fun m3 c => h3 m3 _ c) _ _ m m2 hP hline

/-- Claim C8, amended: the dataset lives in a `std::map` keyed by
sequence id, so after any successful parse the entry list iterated by the
rendering is strictly ascending in id; the rendering therefore emits one
line per sequence in ascending id order (not in order of first
appearance). -/
theorem c8_render_in_key_order (lines : List (List Char)) (m : CTFMap)
    (h : LoadSamples lines = some m) :
    List.Pairwise (fun a b => a.1 < b.1) m ∧
      renderDataset m = (m.map (fun p => renderSequence p.2 ++ ['\n'])).flatten := by
  refine ⟨?_, rfl⟩
  unfold LoadSamples at h
  cases hload : loadLoop (fileSize lines) lines 0 false [] with
  | none =>
    rw [hload] at h
    exact absurd h (by simp)
  | some out =>
    obtain ⟨m2, pr, hi⟩ := out
    rw [hload] at h
    simp only [Option.some.injEq] at h
    subst h
    have := loadLoop_preserves (fileSize lines) (List.Pairwise (fun a b => a.1 < b.1))
      (fun m3 id hP => mapUpd_pairwise m3 id _ hP)
      (fun m3 id s hP => mapUpd_pairwise _ id _ (mapUpd_pairwise m3 id _ hP))
      (fun m3 id c hP => mapUpd_pairwise _ id _ (mapUpd_pairwise m3 id _ hP))
      lines 0 false [] (m2, pr, hi) (by simp) hload
    exact this

/-- Claim C8, witness for the amended theorem at the concrete file whose
ids appear in the order `5, 3`. -/
theorem c8_render_in_key_order_witness :
    List.Pairwise (fun (a b : Nat × CTFSequence) => a.1 < b.1)
        (datasetAfterParse c8File) ∧
      renderDataset (datasetAfterParse c8File) =
        ((datasetAfterParse c8File).map
          (fun p => renderSequence p.2 ++ ['\n'])).flatten :=
  c8_render_in_key_order c8File (datasetAfterParse c8File) (by decide)

/-- Claim C10: after every successfully parsed line (any prefix of the
file and any starting state), every entry of the dataset map stores a
record whose `sequence_id` field equals the key it is stored under — both
branches of the inner loop re-establish
`sequences[sequence_id].sequence_id = sequence_id` whenever they touch a
sequence, including for lines holding only a comment. -/
theorem c10_key_binding (fsize : Nat) (lines : List (List Char))
    (prev : Nat) (hasInit : Bool) (m : CTFMap) (out : CTFMap × Nat × Bool)
    (hm : ∀ p ∈ m, p.2.sequence_id = p.1)
    (h : loadLoop fsize lines prev hasInit m = some out) :
    ∀ p ∈ out.1, p.2.sequence_id = p.1 := by
  refine loadLoop_preserves fsize (fun m2 => ∀ p ∈ m2, p.2.sequence_id = p.1)
    ?_ ?_ ?_ lines prev hasInit m out hm h
  · intro m2 id hP
    exact mapInv_mapUpd m2 id _ hP (fun r => rfl)
  · intro m2 id s hP
    rw [mapPush, mapEnsure, mapUpd_mapUpd]
    exact mapInv_mapUpd m2 id _ hP (fun r => rfl)
  · intro m2 id c hP
    rw [mapSetComment, mapEnsure, mapUpd_mapUpd]
    exact mapInv_mapUpd m2 id _ hP (fun r => rfl)

/-- Claim C10, witness at a concrete two-line file. -/
theorem c10_key_binding_witness :
    ((datasetAfterParse c7File2).getD 0 (0, defaultSeq)).2.sequence_id
      = ((datasetAfterParse c7File2).getD 0 (0, defaultSeq)).1 :=
  c10_key_binding (fileSize c7File2) c7File2 0 false []
    (datasetAfterParse c7File2, 2, true) (by simp) (by decide)
    ((datasetAfterParse c7File2).getD 0 (0, defaultSeq)) (by decide)

/-! ## Scanning numeric tokens (claims C1, C2) -/

theorem isDigit_nul : isDigit (Char.ofNat 0) = false := by decide

theorem isDigit_isNumber {c : Char} (h : isDigit c = true) : isNumber c = true := by
  simp [isNumber, h]

theorem isDigit_not_sign {c : Char} (h : isDigit c = true) : isSign c = false := by
  by_contra hc
  simp only [Bool.not_eq_false] at hc
  simp only [isSign, Bool.or_eq_true, beq_iff_eq] at hc
  rcases hc with rfl | rfl <;> exact absurd h (by decide)

theorem isDigit_not_point {c : Char} (h : isDigit c = true) :
    isDecimalPoint c = false := by
  by_contra hc
  simp only [Bool.not_eq_false] at hc
  simp only [isDecimalPoint, beq_iff_eq] at hc
  subst hc
  exact absurd h (by decide)

theorem isDigit_not_colon {c : Char} (h : isDigit c = true) :
    isSparseValueDelimiter c = false := by
  by_contra hc
  simp only [Bool.not_eq_false] at hc
  simp only [isSparseValueDelimiter, beq_iff_eq] at hc
  subst hc
  exact absurd h (by decide)

theorem isSign_isNumber {c : Char} (h : isSign c = true) : isNumber c = true := by
  simp [isNumber, h]

theorem isSign_not_point {c : Char} (h : isSign c = true) :
    isDecimalPoint c = false := by
  simp only [isSign, Bool.or_eq_true, beq_iff_eq] at h
  rcases h with rfl | rfl <;> decide

theorem isSign_not_colon {c : Char} (h : isSign c = true) :
    isSparseValueDelimiter c = false := by
  simp only [isSign, Bool.or_eq_true, beq_iff_eq] at h
  rcases h with rfl | rfl <;> decide

theorem isSign_nul : isSign (Char.ofNat 0) = false := by decide

theorem vstep_digit {c : Char} (h : isDigit c = true) (runner : Nat) (st : VScan) :
    vstep c runner st = st := by
  simp [vstep, isDigit_not_sign h, isDigit_not_point h, isDigit_not_colon h]

theorem getC_cons_zero (c : Char) (l : List Char) : getC (c :: l) 0 = c := rfl

theorem getC_cons_succ (c : Char) (l : List Char) (i : Nat) :
    getC (c :: l) (i + 1) = getC l i := rfl

theorem getC_append_right (pre rest : List Char) (i : Nat) :
    getC (pre ++ rest) (pre.length + i) = getC rest i := by
  induction pre with
  | nil => simp
  | cons c pre ih =>
    simp only [List.cons_append, List.length_cons]
    rw [show pre.length + 1 + i = (pre.length + i) + 1 by omega, getC_cons_succ]
    exact ih

theorem getC_append_left (pre rest : List Char) (i : Nat) (h : i < pre.length) :
    getC (pre ++ rest) i = getC pre i := by
  simp only [getC]
  rw [List.getD_append _ _ _ _ h]

theorem digits_getC (d rest : List Char) (hd : ∀ c ∈ d, isDigit c = true) :
    ∀ i, i < d.length → isDigit (getC (d ++ rest) i) = true := by
  intro i hi
  rw [getC_append_left d rest i hi]
  simp only [getC]
  rw [List.getD_eq_getElem _ _ hi]
  exact hd _ (List.getElem_mem hi)

/-- Running `GetValue`'s scan loop over a run of digit characters leaves
the scan state unchanged. -/
theorem valueLoop_digits (buf : List Char) :
    ∀ (k runner : Nat) (st : VScan),
      (∀ i, i < k → isDigit (getC buf (runner + i)) = true) →
      valueLoop buf runner st = valueLoop buf (runner + k) st := by
  intro k
  induction k with
  | zero => intro runner st h; rfl
  | succ n ih =>
    intro runner st h
    have h0 : isDigit (getC buf runner) = true := by
      have := h 0 (by omega)
      simpa using this
    have hlt : runner < buf.length := getC_lt_of_pred isDigit_nul h0
    rw [valueLoop_step buf runner st hlt]
    rw [if_pos (by simp [isDigit_isNumber h0]),
      if_neg (by simp [isDigit_not_sign h0]),
      if_neg (by simp [isDigit_not_point h0]),
      vstep_digit h0]
    have := ih (runner + 1) st (fun i hi => by
      have := h (i + 1) (by omega)
      rwa [show runner + (i + 1) = runner + 1 + i by omega] at this)
    rw [this]
    congr 1
    omega

/-- Stepping `GetValue`'s scan loop over the sparse delimiter `:` records
the index slice and moves `beg_value` past the delimiter. -/
theorem valueLoop_colon (buf : List Char) (runner : Nat) (st : VScan)
    (h : getC buf runner = ':') :
    valueLoop buf runner st =
      valueLoop buf (runner + 1)
        { st with begIndex := some st.begValue, endIndex := runner,
                  begValue := runner + 1 } := by
  have hcol : isSparseValueDelimiter (getC buf runner) = true := by rw [h]; decide
  have hsign : isSign (getC buf runner) = false := by rw [h]; decide
  have hpoint : isDecimalPoint (getC buf runner) = false := by rw [h]; decide
  have hlt : runner < buf.length :=
    getC_lt_of_pred (p := isSparseValueDelimiter) (by decide) hcol
  rw [valueLoop_step buf runner st hlt]
  rw [if_pos (by simp [hcol]), if_neg (by simp [hsign]),
    if_neg (by simp [hpoint])]
  congr 1
  simp only [vstep, hsign, Bool.false_eq_true, if_false, hpoint, hcol, if_true]

/-- Stepping `GetValue`'s scan loop over a first sign character sets
`has_signal`. -/
theorem valueLoop_sign (buf : List Char) (runner : Nat) (st : VScan)
    (h : isSign (getC buf runner) = true) (hs : st.hasSignal = false) :
    valueLoop buf runner st =
      valueLoop buf (runner + 1) { st with hasSignal := true } := by
  have hlt : runner < buf.length := getC_lt_of_pred isSign_nul h
  rw [valueLoop_step buf runner st hlt]
  rw [if_pos (by simp [isSign_isNumber h]),
    if_neg (by simp [hs]),
    if_neg (by simp [isSign_not_point h])]
  congr 1
  simp only [vstep, h, if_pos, isSign_not_point h, Bool.false_eq_true, if_false,
    isSign_not_colon h]

/-- A second sign aborts `GetValue`'s scan loop. -/
theorem valueLoop_second_sign (buf : List Char) (runner : Nat) (st : VScan)
    (h : isSign (getC buf runner) = true) (hs : st.hasSignal = true) :
    valueLoop buf runner st = none := by
  have hlt : runner < buf.length := getC_lt_of_pred isSign_nul h
  rw [valueLoop_step buf runner st hlt]
  rw [if_pos (by simp [isSign_isNumber h]), if_pos (by simp [h, hs])]

theorem isPoint_nul : isDecimalPoint (Char.ofNat 0) = false := by decide

theorem isPoint_isNumber {c : Char} (h : isDecimalPoint c = true) :
    isNumber c = true := by
  simp [isNumber, h]

theorem isPoint_not_sign {c : Char} (h : isDecimalPoint c = true) :
    isSign c = false := by
  simp only [isDecimalPoint, beq_iff_eq] at h
  subst h
  decide

theorem isPoint_not_colon {c : Char} (h : isDecimalPoint c = true) :
    isSparseValueDelimiter c = false := by
  simp only [isDecimalPoint, beq_iff_eq] at h
  subst h
  decide

/-- Stepping `GetValue`'s scan loop over a first decimal point sets
`is_float`. -/
theorem valueLoop_point (buf : List Char) (runner : Nat) (st : VScan)
    (h : isDecimalPoint (getC buf runner) = true) (hf : st.isFloat = false) :
    valueLoop buf runner st =
      valueLoop buf (runner + 1) { st with isFloat := true } := by
  have hlt : runner < buf.length := getC_lt_of_pred isPoint_nul h
  rw [valueLoop_step buf runner st hlt]
  rw [if_pos (by simp [isPoint_isNumber h]),
    if_neg (by simp [isPoint_not_sign h]),
    if_neg (by simp [hf])]
  congr 1
  simp only [vstep, isPoint_not_sign h, Bool.false_eq_true, if_false, h, if_pos,
    isPoint_not_colon h]

/-- A second decimal point aborts `GetValue`'s scan loop. -/
theorem valueLoop_second_point (buf : List Char) (runner : Nat) (st : VScan)
    (h : isDecimalPoint (getC buf runner) = true) (hf : st.isFloat = true) :
    valueLoop buf runner st = none := by
  have hlt : runner < buf.length := getC_lt_of_pred isPoint_nul h
  rw [valueLoop_step buf runner st hlt]
  rw [if_pos (by simp [isPoint_isNumber h]),
    if_neg (by simp [isPoint_not_sign h]), if_pos (by simp [h, hf])]

theorem bufSlice_first (a rest : List Char) :
    bufSlice (a ++ rest) 0 a.length = a := by
  simp [bufSlice, List.take_left]

theorem bufSlice_middle (pre mid post : List Char) :
    bufSlice (pre ++ (mid ++ post)) pre.length (pre.length + mid.length) = mid := by
  simp only [bufSlice]
  rw [List.take_append]
  rw [List.take_left' rfl]
  rw [List.drop_left]

theorem digits_no_sign_head {c : Char} (h : isDigit c = true) :
    (c == '+') = false ∧ (c == '-') = false := by
  have := isDigit_not_sign h
  simp only [isSign, Bool.or_eq_false_iff] at this
  exact this

theorem takeWhile_digits (a : List Char) (ha : ∀ c ∈ a, isDigit c = true) :
    a.takeWhile isDigit = a :=
  List.takeWhile_eq_self_iff.2 ha

theorem stoullModel_digits (a : List Char) (ha : ∀ c ∈ a, isDigit c = true)
    (hne : a ≠ []) : stoullModel a = some (digitsToNat a) := by
  cases a with
  | nil => exact absurd rfl hne
  | cons c r =>
    have hc : isDigit c = true := ha c (by simp)
    obtain ⟨h1, h2⟩ := digits_no_sign_head hc
    simp only [stoullModel, h1, h2, Bool.or_self, Bool.false_eq_true, if_false]
    rw [takeWhile_digits (c :: r) ha]
    simp

theorem stollModel_digits (a : List Char) (ha : ∀ c ∈ a, isDigit c = true)
    (hne : a ≠ []) : stollModel a = some (digitsToNat a : Int) := by
  cases a with
  | nil => exact absurd rfl hne
  | cons c r =>
    have hc : isDigit c = true := ha c (by simp)
    obtain ⟨h1, h2⟩ := digits_no_sign_head hc
    simp only [stollModel, h1, h2, Bool.or_self, Bool.false_eq_true, if_false]
    rw [takeWhile_digits (c :: r) ha]
    simp

theorem stollModel_neg_digits (d : List Char) (hd : ∀ c ∈ d, isDigit c = true)
    (hne : d ≠ []) : stollModel ('-' :: d) = some (-(digitsToNat d : Int)) := by
  simp only [stollModel]
  rw [show (('-' : Char) == '+' || ('-' : Char) == '-') = true by decide]
  simp only [if_true]
  rw [takeWhile_digits d hd]
  rw [if_neg (by simpa using hne)]
  rw [if_pos (by decide)]

/-- Scanning an optionally signed digit run that ends at an EOL: the loop
consumes the token and stops at the EOL, recording only the sign. -/
theorem valueLoop_token (pre d tail2 : List Char) (neg : Bool) (st : VScan)
    (p : Nat) (hp : p = pre.length)
    (hs : st.hasSignal = false) (hd : ∀ c ∈ d, isDigit c = true) :
    valueLoop (pre ++ (((if neg then ['-'] else []) ++ d) ++ '\n' :: tail2))
        p st =
      some (p + (if neg then d.length + 1 else d.length),
            if neg then { st with hasSignal := true } else st) := by
  subst hp
  cases neg with
  | false =>
    simp only [if_false, Bool.false_eq_true, List.nil_append]
    have hdig : ∀ i, i < d.length →
        isDigit (getC (pre ++ (d ++ '\n' :: tail2)) (pre.length + i)) = true := by
      intro i hi
      rw [getC_append_right]
      exact digits_getC d ('\n' :: tail2) hd i hi
    rw [valueLoop_digits _ d.length pre.length st hdig]
    apply valueLoop_stop
    · rw [getC_append_right]
      have h0 := getC_append_right d ('\n' :: tail2) 0
      simp only [Nat.add_zero] at h0
      rw [h0, getC_cons_zero]
      decide
    · rw [getC_append_right]
      have h0 := getC_append_right d ('\n' :: tail2) 0
      simp only [Nat.add_zero] at h0
      rw [h0, getC_cons_zero]
      decide
  | true =>
    simp only [if_true]
    have hminus : getC (pre ++ (('-' :: d) ++ '\n' :: tail2)) pre.length = '-' := by
      have := getC_append_right pre (('-' :: d) ++ '\n' :: tail2) 0
      simpa using this
    rw [show ((['-'] ++ d) ++ '\n' :: tail2) = ('-' :: d) ++ '\n' :: tail2 by simp]
    rw [valueLoop_sign _ _ _ (by rw [hminus]; decide) hs]
    have hdig : ∀ i, i < d.length →
        isDigit (getC (pre ++ (('-' :: d) ++ '\n' :: tail2)) (pre.length + 1 + i))
          = true := by
      intro i hi
      rw [show pre.length + 1 + i = pre.length + (1 + i) by omega]
      rw [getC_append_right]
      rw [show ('-' :: d) ++ '\n' :: tail2 = '-' :: (d ++ '\n' :: tail2) by simp]
      rw [show (1 : Nat) + i = i + 1 by omega, getC_cons_succ]
      exact digits_getC d ('\n' :: tail2) hd i hi
    rw [valueLoop_digits _ d.length (pre.length + 1) _ hdig]
    have heol : getC (pre ++ (('-' :: d) ++ '\n' :: tail2))
        (pre.length + 1 + d.length) = '\n' := by
      rw [show pre.length + 1 + d.length = pre.length + (1 + d.length) by omega]
      rw [getC_append_right]
      rw [show ('-' :: d) ++ '\n' :: tail2 = '-' :: (d ++ '\n' :: tail2) by simp]
      rw [show (1 : Nat) + d.length = d.length + 1 by omega, getC_cons_succ]
      have := getC_append_right d ('\n' :: tail2) 0
      simpa using this
    rw [valueLoop_stop (by rw [heol]; decide) (by rw [heol]; decide)]
    congr 2
    omega

/-- `finishValue` when the token stopped at an EOL character: the cursor
stays at the EOL and the after-value check passes. -/
theorem finishValue_at_eol (buf : List Char) (endv : Nat) (st : VScan)
    (heol : getC buf endv = '\n') :
    finishValue buf endv st =
      match vIndex buf st, vValue buf endv st with
      | some idx, some q =>
        some ({ type := if st.isFloat then CTFValueType.Double else CTFValueType.Int16,
                value := q, index := idx }, endv)
      | _, _ => none := by
  have hr : vRunner buf endv = endv := by
    unfold vRunner
    have h1 : (! isEOL (getC buf endv)) = false := by rw [heol]; decide
    rw [h1]
    simp only [Bool.false_eq_true, if_false]
    exact skipWhile_of_neg (by rw [heol]; decide)
  unfold finishValue
  rw [hr]
  have h2 : (! isNumber (getC buf endv) && ! isCommentStart (getC buf endv)
      && ! isEOL (getC buf endv)) = false := by rw [heol]; decide
  rw [h2]
  simp only [Bool.false_eq_true, if_false]

/-- `finishValue` for an integer token stopped at an EOL. -/
theorem finishValue_token (buf : List Char) (endv : Nat) (st : VScan)
    (heol : getC buf endv = '\n') (hfl : st.isFloat = false) (idx : Nat)
    (hidx : vIndex buf st = some idx) (q : Int)
    (hq : stollModel (bufSlice buf st.begValue endv) = some q) :
    finishValue buf endv st =
      some ({ type := CTFValueType.Int16, value := (q : ℚ), index := idx },
        endv) := by
  rw [finishValue_at_eol buf endv st heol, hidx]
  unfold vValue
  rw [hfl]
  simp only [Bool.false_eq_true, if_false]
  rw [hq]
  simp [hfl]

theorem bufSlice_middle2 (pre mid post : List Char) (i j : Nat)
    (hi : i = pre.length) (hj : j = pre.length + mid.length) :
    bufSlice (pre ++ (mid ++ post)) i j = mid := by
  subst hi
  subst hj
  exact bufSlice_middle pre mid post

theorem getC_pre_mid (pre mid post : List Char) (c : Char) (i : Nat)
    (hi : i = pre.length + mid.length) :
    getC (pre ++ (mid ++ (c :: post))) i = c := by
  subst hi
  rw [getC_append_right pre _ mid.length]
  have := getC_append_right mid (c :: post) 0
  simpa using this

theorem GetValue_eq_finish (buf : List Char) (pos : Nat)
    (hnum : isNumber (getC buf pos) = true) (e : Nat) (st : VScan)
    (hloop : valueLoop buf pos ⟨false, false, none, 0, pos⟩ = some (e, st)) :
    GetValue buf pos = finishValue buf e st := by
  rw [GetValue, show (! isNumber (getC buf pos)) = false by rw [hnum]; rfl]
  simp only [Bool.false_eq_true, if_false]
  rw [hloop]

/-- Claim C1: a value token `digits:number` parses to the index given by
the digits left of `:` and the value given by the number right of it; a
token with no `:` parses to a positional value with the index left at the
`SIZE_MAX` sentinel.  Stated for an optionally negated run of digits as
the number, with the token ending at the end of the line. -/
theorem c1_sparse_dense_values (a d tail : List Char) (neg : Bool)
    (ha : ∀ c ∈ a, isDigit c = true) (hane : a ≠ [])
    (hd : ∀ c ∈ d, isDigit c = true) (hdne : d ≠ []) :
    GetValue (a ++ (':' :: (((if neg then ['-'] else []) ++ d) ++ '\n' :: tail))) 0 =
      some ({ type := CTFValueType.Int16,
              value := if neg then -(digitsToNat d : ℚ) else (digitsToNat d : ℚ),
              index := digitsToNat a },
            a.length + 1 + (if neg then d.length + 1 else d.length)) ∧
    GetValue (((if neg then ['-'] else []) ++ d) ++ '\n' :: tail) 0 =
      some ({ type := CTFValueType.Int16,
              value := if neg then -(digitsToNat d : ℚ) else (digitsToNat d : ℚ),
              index := SIZE_MAX },
            if neg then d.length + 1 else d.length) := by
  obtain ⟨c0, drest, rfl⟩ : ∃ c0 drest, d = c0 :: drest := by
    cases d with
    | nil => exact absurd rfl hdne
    | cons x xs => exact ⟨x, xs, rfl⟩
  have hc0 : isDigit c0 = true := hd c0 (by simp)
  have hstoll : stollModel ((if neg then ['-'] else []) ++ c0 :: drest) =
      some (if neg then -(digitsToNat (c0 :: drest) : Int)
            else (digitsToNat (c0 :: drest) : Int)) := by
    cases neg with
    | false =>
      simp only [Bool.false_eq_true, if_false, List.nil_append]
      exact stollModel_digits (c0 :: drest) hd hdne
    | true =>
      simp only [if_true, List.singleton_append]
      exact stollModel_neg_digits (c0 :: drest) hd hdne
  constructor
  · -- sparse token
    obtain ⟨ca, arest, rfl⟩ : ∃ ca arest, a = ca :: arest := by
      cases a with
      | nil => exact absurd rfl hane
      | cons x xs => exact ⟨x, xs, rfl⟩
    have hca : isDigit ca = true := ha ca (by simp)
    have hnum0 : isNumber (getC ((ca :: arest) ++
        (':' :: (((if neg then ['-'] else []) ++ c0 :: drest) ++ '\n' :: tail))) 0)
        = true := by
      simp only [List.cons_append, getC_cons_zero]
      exact isDigit_isNumber hca
    have hdigA : ∀ i, i < (ca :: arest).length →
        isDigit (getC ((ca :: arest) ++
          (':' :: (((if neg then ['-'] else []) ++ c0 :: drest) ++ '\n' :: tail)))
          (0 + i)) = true := by
      intro i hi
      simp only [Nat.zero_add]
      exact digits_getC (ca :: arest) _ ha i hi
    have h1 := valueLoop_digits ((ca :: arest) ++
        (':' :: (((if neg then ['-'] else []) ++ c0 :: drest) ++ '\n' :: tail)))
        (ca :: arest).length 0 ⟨false, false, none, 0, 0⟩ hdigA
    simp only [Nat.zero_add] at h1
    have hcolon : getC ((ca :: arest) ++
        (':' :: (((if neg then ['-'] else []) ++ c0 :: drest) ++ '\n' :: tail)))
        (ca :: arest).length = ':' := by
      have := getC_append_right (ca :: arest)
        (':' :: (((if neg then ['-'] else []) ++ c0 :: drest) ++ '\n' :: tail)) 0
      simpa using this
    have h2 := valueLoop_colon ((ca :: arest) ++
        (':' :: (((if neg then ['-'] else []) ++ c0 :: drest) ++ '\n' :: tail)))
        (ca :: arest).length ⟨false, false, none, 0, 0⟩ hcolon
    have h3 := valueLoop_token ((ca :: arest) ++ [':'])
        (c0 :: drest) tail neg
        ⟨false, false, some 0, (ca :: arest).length, (ca :: arest).length + 1⟩
        ((ca :: arest).length + 1) (by simp) rfl hd
    rw [List.append_assoc] at h3
    have hv : valueLoop ((ca :: arest) ++
        (':' :: (((if neg then ['-'] else []) ++ c0 :: drest) ++ '\n' :: tail)))
        0 ⟨false, false, none, 0, 0⟩ =
      some ((ca :: arest).length + 1 +
          (if neg then (c0 :: drest).length + 1 else (c0 :: drest).length),
        if neg then
          ⟨false, true, some 0, (ca :: arest).length, (ca :: arest).length + 1⟩
        else
          ⟨false, false, some 0, (ca :: arest).length, (ca :: arest).length + 1⟩) := by
      rw [h1, h2]
      exact h3
    rw [GetValue_eq_finish _ 0 hnum0 _ _ hv]
    have heol : getC ((ca :: arest) ++
        (':' :: (((if neg then ['-'] else []) ++ c0 :: drest) ++ '\n' :: tail)))
        ((ca :: arest).length + 1 +
          (if neg then (c0 :: drest).length + 1 else (c0 :: drest).length))
        = '\n' := by
      rw [show ((ca :: arest) ++
        (':' :: (((if neg then ['-'] else []) ++ c0 :: drest) ++ '\n' :: tail)))
        = (((ca :: arest) ++ [':']) ++
            ((((if neg then ['-'] else []) ++ c0 :: drest)) ++ ('\n' :: tail)))
        by simp]
      apply getC_pre_mid
      cases neg <;> simp
    have hsl : bufSlice ((ca :: arest) ++
        (':' :: (((if neg then ['-'] else []) ++ c0 :: drest) ++ '\n' :: tail)))
        ((ca :: arest).length + 1)
        ((ca :: arest).length + 1 +
          (if neg then (c0 :: drest).length + 1 else (c0 :: drest).length))
        = (if neg then ['-'] else []) ++ c0 :: drest := by
      rw [show ((ca :: arest) ++
        (':' :: (((if neg then ['-'] else []) ++ c0 :: drest) ++ '\n' :: tail)))
        = (((ca :: arest) ++ [':']) ++
            ((((if neg then ['-'] else []) ++ c0 :: drest)) ++ ('\n' :: tail)))
        by simp]
      apply bufSlice_middle2
      · simp
      · cases neg <;> simp
    have hidx : vIndex ((ca :: arest) ++
        (':' :: (((if neg then ['-'] else []) ++ c0 :: drest) ++ '\n' :: tail)))
        (if neg then
          (⟨false, true, some 0, (ca :: arest).length, (ca :: arest).length + 1⟩ : VScan)
        else
          ⟨false, false, some 0, (ca :: arest).length, (ca :: arest).length + 1⟩)
        = some (digitsToNat (ca :: arest)) := by
      have hsl0 : bufSlice ((ca :: arest) ++
          (':' :: (((if neg then ['-'] else []) ++ c0 :: drest) ++ '\n' :: tail)))
          0 (ca :: arest).length = ca :: arest := bufSlice_first _ _
      cases neg with
      | false =>
        simp only [Bool.false_eq_true, if_false, List.nil_append] at hsl0
        simp only [Bool.false_eq_true, if_false, List.nil_append, vIndex, hsl0]
        exact stoullModel_digits (ca :: arest) ha hane
      | true =>
        simp only [if_true, List.singleton_append] at hsl0
        simp only [if_true, List.singleton_append, vIndex, hsl0]
        exact stoullModel_digits (ca :: arest) ha hane
    cases neg with
    | false =>
      simp only [Bool.false_eq_true, if_false] at heol hsl hidx ⊢
      rw [finishValue_token _ _ _ heol rfl (digitsToNat (ca :: arest)) hidx
        (digitsToNat (c0 :: drest) : Int)
        (by
          rw [show (⟨false, false, some 0, (ca :: arest).length,
            (ca :: arest).length + 1⟩ : VScan).begValue = (ca :: arest).length + 1
            from rfl, hsl]
          simpa using hstoll)]
      simp
    | true =>
      simp only [if_true] at heol hsl hidx ⊢
      rw [finishValue_token _ _ _ heol rfl (digitsToNat (ca :: arest)) hidx
        (-(digitsToNat (c0 :: drest) : Int))
        (by
          rw [show (⟨false, true, some 0, (ca :: arest).length,
            (ca :: arest).length + 1⟩ : VScan).begValue = (ca :: arest).length + 1
            from rfl, hsl]
          simpa using hstoll)]
      simp
  · -- dense token
    cases neg with
    | false =>
      simp only [Bool.false_eq_true, if_false, List.nil_append] at hstoll ⊢
      have hnum0 : isNumber (getC (c0 :: drest ++ '\n' :: tail) 0) = true := by
        rw [show getC (c0 :: drest ++ '\n' :: tail) 0 = c0 from rfl]
        exact isDigit_isNumber hc0
      have h3 := valueLoop_token [] (c0 :: drest) tail false
          ⟨false, false, none, 0, 0⟩ 0 (by simp) rfl hd
      simp only [Bool.false_eq_true, if_false, List.nil_append, Nat.zero_add] at h3
      rw [GetValue_eq_finish _ 0 hnum0 _ _ h3]
      have heol : getC (c0 :: drest ++ '\n' :: tail) (c0 :: drest).length = '\n' := by
        have := getC_pre_mid [] (c0 :: drest) tail '\n' (c0 :: drest).length (by simp)
        simpa using this
      have hsl : bufSlice (c0 :: drest ++ '\n' :: tail) 0 (c0 :: drest).length
          = c0 :: drest := by
        have := bufSlice_middle2 [] (c0 :: drest) ('\n' :: tail) 0
          (c0 :: drest).length (by simp) (by simp)
        simpa using this
      rw [finishValue_token _ _ ⟨false, false, none, 0, 0⟩ heol rfl SIZE_MAX rfl
        (digitsToNat (c0 :: drest) : Int)
        (by
          rw [show (⟨false, false, none, 0, 0⟩ : VScan).begValue = 0 from rfl, hsl]
          exact hstoll)]
      simp
    | true =>
      simp only [if_true, List.singleton_append] at hstoll ⊢
      have hnum0 : isNumber (getC (('-' :: c0 :: drest) ++ '\n' :: tail) 0)
          = true := by
        rw [show getC (('-' :: c0 :: drest) ++ '\n' :: tail) 0 = '-' from rfl]
        decide
      have h3 := valueLoop_token [] (c0 :: drest) tail true
          ⟨false, false, none, 0, 0⟩ 0 (by simp) rfl hd
      simp only [if_true, List.singleton_append, List.nil_append, Nat.zero_add] at h3
      rw [GetValue_eq_finish _ 0 hnum0 _ _ h3]
      have heol : getC (('-' :: c0 :: drest) ++ '\n' :: tail)
          ((c0 :: drest).length + 1) = '\n' := by
        have := getC_pre_mid [] ('-' :: c0 :: drest) tail '\n'
          ((c0 :: drest).length + 1) (by simp)
        simpa using this
      have hsl : bufSlice (('-' :: c0 :: drest) ++ '\n' :: tail) 0
          ((c0 :: drest).length + 1) = '-' :: c0 :: drest := by
        have := bufSlice_middle2 [] ('-' :: c0 :: drest) ('\n' :: tail) 0
          ((c0 :: drest).length + 1) (by simp) (by simp)
        simpa using this
      rw [finishValue_token _ _ ⟨false, true, none, 0, 0⟩ heol rfl SIZE_MAX rfl
        (-(digitsToNat (c0 :: drest) : Int))
        (by
          rw [show (⟨false, true, none, 0, 0⟩ : VScan).begValue = 0 from rfl, hsl]
          exact hstoll)]
      simp

theorem c1_sparse_dense_values_witness :
    GetValue ['2', '3', '4', ':', '1', '\n'] 0 =
      some ({ type := CTFValueType.Int16, value := (1 : ℚ), index := 234 }, 5) ∧
    GetValue ['5', '\n'] 0 =
      some ({ type := CTFValueType.Int16, value := (5 : ℚ), index := SIZE_MAX }, 1) := by
  have e1 : digitsToNat ['1'] = 1 := by decide
  have e2 : digitsToNat ['2', '3', '4'] = 234 := by decide
  have e3 : digitsToNat ['5'] = 5 := by decide
  have h1 := c1_sparse_dense_values ['2', '3', '4'] ['1'] [] false
    (by decide) (by decide) (by decide) (by decide)
  have h2 := c1_sparse_dense_values ['9'] ['5'] [] false
    (by decide) (by decide) (by decide) (by decide)
  exact ⟨h1.1.trans (by rw [e1, e2]; norm_num),
         h2.2.trans (by rw [e3]; norm_num)⟩

/-! ## Claim C2: malformed value tokens abort the whole parse -/

theorem getC_at (pre rest : List Char) (i j : Nat) (hj : j = pre.length + i) :
    getC (pre ++ rest) j = getC rest i := by
  subst hj
  exact getC_append_right pre rest i

theorem skipWhile_adds (p : Char → Bool) (hnul : p (Char.ofNat 0) = false)
    (buf : List Char) :
    ∀ (k pos : Nat), (∀ i, i < k → p (getC buf (pos + i)) = true) →
      p (getC buf (pos + k)) = false → skipWhile p buf pos = pos + k := by
  intro k
  induction k with
  | zero =>
    intro pos _ hstop
    simp only [Nat.add_zero] at hstop ⊢
    exact skipWhile_of_neg hstop
  | succ n ih =>
    intro pos hrun hstop
    have hp0 : p (getC buf pos) = true := by
      have := hrun 0 (by omega)
      simpa using this
    have hlt : pos < buf.length := getC_lt_of_pred hnul hp0
    rw [skipWhile_step p buf pos hlt, if_pos hp0]
    have hr2 : ∀ i, i < n → p (getC buf (pos + 1 + i)) = true := by
      intro i hi
      have := hrun (i + 1) (by omega)
      rw [show pos + 1 + i = pos + (i + 1) from by omega]
      exact this
    have hs2 : p (getC buf (pos + 1 + n)) = false := by
      rw [show pos + 1 + n = pos + (n + 1) from by omega]
      exact hstop
    rw [ih (pos + 1) hr2 hs2]
    omega

theorem isNumber_not_delim {c : Char} (h : isNumber c = true) :
    isValueDelimiter c = false := by
  by_contra hc
  simp only [Bool.not_eq_false] at hc
  simp only [isValueDelimiter, Bool.or_eq_true, beq_iff_eq] at hc
  rcases hc with rfl | rfl <;> exact absurd h (by decide)

theorem isNumber_not_nameStart {c : Char} (h : isNumber c = true) :
    isNameStart c = false := by
  by_contra hc
  simp only [Bool.not_eq_false] at hc
  simp only [isNameStart, beq_iff_eq] at hc
  subst hc
  exact absurd h (by decide)

theorem isNumber_not_eol {c : Char} (h : isNumber c = true) :
    isEOL c = false := by
  by_contra hc
  simp only [Bool.not_eq_false] at hc
  simp only [isEOL, Bool.or_eq_true, beq_iff_eq] at hc
  rcases hc with rfl | rfl <;> exact absurd h (by decide)

theorem digitAlpha_not_hash {c : Char} (h : (isDigit c || isAlpha c) = true) :
    isCommentSuffix c = false := by
  by_contra hc
  simp only [Bool.not_eq_false] at hc
  simp only [isCommentSuffix, beq_iff_eq] at hc
  subst hc
  exact absurd h (by decide)

/-- A value token holding a second decimal point makes `GetValue` take the
early `return false` of the malformed-value grammar check. -/
theorem GetValue_none_two_points (pre d1 d2 rest : List Char) (pos : Nat)
    (hp : pos = pre.length)
    (h1 : ∀ c ∈ d1, isDigit c = true) (h1ne : d1 ≠ [])
    (h2 : ∀ c ∈ d2, isDigit c = true) :
    GetValue (pre ++ (d1 ++ ('.' :: (d2 ++ ('.' :: rest))))) pos = none := by
  subst hp
  obtain ⟨c1, d1r, rfl⟩ : ∃ c1 r, d1 = c1 :: r := by
    cases d1 with
    | nil => exact absurd rfl h1ne
    | cons x xs => exact ⟨x, xs, rfl⟩
  have hg0 : getC (pre ++ ((c1 :: d1r) ++ ('.' :: (d2 ++ ('.' :: rest)))))
      pre.length = c1 := by
    rw [getC_at pre _ 0 pre.length (by omega)]
    rfl
  rw [GetValue, if_neg (by rw [hg0]; simp [isDigit_isNumber (h1 c1 (by simp))])]
  have hd1 : ∀ i, i < (c1 :: d1r).length →
      isDigit (getC (pre ++ ((c1 :: d1r) ++ ('.' :: (d2 ++ ('.' :: rest)))))
        (pre.length + i)) = true := by
    intro i hi
    rw [getC_at pre _ i (pre.length + i) rfl]
    exact digits_getC (c1 :: d1r) _ h1 i hi
  have hA := valueLoop_digits (pre ++ ((c1 :: d1r) ++ ('.' :: (d2 ++ ('.' :: rest)))))
    (c1 :: d1r).length pre.length ⟨false, false, none, 0, pre.length⟩ hd1
  have hdot1 : getC (pre ++ ((c1 :: d1r) ++ ('.' :: (d2 ++ ('.' :: rest)))))
      (pre.length + (c1 :: d1r).length) = '.' := by
    rw [getC_at pre _ (c1 :: d1r).length _ rfl,
      getC_at (c1 :: d1r) _ 0 (c1 :: d1r).length (by omega)]
    rfl
  have hB := valueLoop_point (pre ++ ((c1 :: d1r) ++ ('.' :: (d2 ++ ('.' :: rest)))))
    (pre.length + (c1 :: d1r).length) ⟨false, false, none, 0, pre.length⟩
    (by rw [hdot1]; decide) rfl
  have hd2 : ∀ i, i < d2.length →
      isDigit (getC (pre ++ ((c1 :: d1r) ++ ('.' :: (d2 ++ ('.' :: rest)))))
        (pre.length + (c1 :: d1r).length + 1 + i)) = true := by
    intro i hi
    rw [getC_at pre _ ((c1 :: d1r).length + (1 + i)) _ (by omega),
      getC_at (c1 :: d1r) _ (1 + i) _ rfl,
      show 1 + i = i + 1 from by omega, getC_cons_succ]
    exact digits_getC d2 _ h2 i hi
  have hC := valueLoop_digits (pre ++ ((c1 :: d1r) ++ ('.' :: (d2 ++ ('.' :: rest)))))
    d2.length (pre.length + (c1 :: d1r).length + 1)
    { (⟨false, false, none, 0, pre.length⟩ : VScan) with isFloat := true } hd2
  have hdot2 : getC (pre ++ ((c1 :: d1r) ++ ('.' :: (d2 ++ ('.' :: rest)))))
      (pre.length + (c1 :: d1r).length + 1 + d2.length) = '.' := by
    rw [getC_at pre _ ((c1 :: d1r).length + (1 + d2.length)) _ (by omega),
      getC_at (c1 :: d1r) _ (1 + d2.length) _ rfl,
      show 1 + d2.length = d2.length + 1 from by omega, getC_cons_succ,
      getC_at d2 _ 0 d2.length (by omega)]
    rfl
  have hD := valueLoop_second_point
    (pre ++ ((c1 :: d1r) ++ ('.' :: (d2 ++ ('.' :: rest)))))
    (pre.length + (c1 :: d1r).length + 1 + d2.length)
    { (⟨false, false, none, 0, pre.length⟩ : VScan) with isFloat := true }
    (by rw [hdot2]; decide) rfl
  rw [show valueLoop (pre ++ ((c1 :: d1r) ++ ('.' :: (d2 ++ ('.' :: rest)))))
      pre.length ⟨false, false, none, 0, pre.length⟩ = none from
    hA.trans (hB.trans (hC.trans hD))]

/-- A value token holding a second sign character makes `GetValue` take the
early `return false` of the malformed-value grammar check. -/
theorem GetValue_none_two_signs (pre d rest : List Char) (s1 s2 : Char)
    (pos : Nat) (hp : pos = pre.length)
    (hs1 : isSign s1 = true) (hs2 : isSign s2 = true)
    (hd : ∀ c ∈ d, isDigit c = true) :
    GetValue (pre ++ (s1 :: (d ++ (s2 :: rest)))) pos = none := by
  subst hp
  have hg0 : getC (pre ++ (s1 :: (d ++ (s2 :: rest)))) pre.length = s1 := by
    rw [getC_at pre _ 0 pre.length (by omega)]
    rfl
  rw [GetValue, if_neg (by rw [hg0]; simp [isSign_isNumber hs1])]
  have hA := valueLoop_sign (pre ++ (s1 :: (d ++ (s2 :: rest)))) pre.length
    ⟨false, false, none, 0, pre.length⟩ (by rw [hg0]; exact hs1) rfl
  have hd' : ∀ i, i < d.length →
      isDigit (getC (pre ++ (s1 :: (d ++ (s2 :: rest)))) (pre.length + 1 + i))
        = true := by
    intro i hi
    rw [getC_at pre _ (1 + i) _ (by omega),
      show 1 + i = i + 1 from by omega, getC_cons_succ]
    exact digits_getC d _ hd i hi
  have hB := valueLoop_digits (pre ++ (s1 :: (d ++ (s2 :: rest)))) d.length
    (pre.length + 1)
    { (⟨false, false, none, 0, pre.length⟩ : VScan) with hasSignal := true } hd'
  have hg2 : getC (pre ++ (s1 :: (d ++ (s2 :: rest))))
      (pre.length + 1 + d.length) = s2 := by
    rw [getC_at pre _ (1 + d.length) _ (by omega),
      show 1 + d.length = d.length + 1 from by omega, getC_cons_succ,
      getC_at d _ 0 d.length (by omega)]
    rfl
  have hC := valueLoop_second_sign (pre ++ (s1 :: (d ++ (s2 :: rest))))
    (pre.length + 1 + d.length)
    { (⟨false, false, none, 0, pre.length⟩ : VScan) with hasSignal := true }
    (by rw [hg2]; exact hs2) rfl
  rw [show valueLoop (pre ++ (s1 :: (d ++ (s2 :: rest)))) pre.length
      ⟨false, false, none, 0, pre.length⟩ = none from hA.trans (hB.trans hC)]

/-- On a line `|name token…` whose name is made of digits and letters and
whose first token character is numeric, `GetName` returns the name and the
cursor at the token start. -/
theorem GetName_badline (nm tbody : List Char)
    (hnm : ∀ c ∈ nm, (isDigit c || isAlpha c) = true)
    (htb : isNumber (getC tbody 0) = true) :
    GetName ('|' :: (nm ++ (' ' :: tbody))) 0 = some (nm, nm.length + 2) := by
  have hg0 : getC ('|' :: (nm ++ (' ' :: tbody))) 0 = '|' := rfl
  have hs1 : skipWhile (fun c => isDigit c || isAlpha c)
      ('|' :: (nm ++ (' ' :: tbody))) 1 = 1 + nm.length := by
    apply skipWhile_adds _ (by decide)
    · intro i hi
      rw [show (1 : Nat) + i = i + 1 from by omega, getC_cons_succ,
        getC_append_left nm _ i hi]
      simp only [getC]
      rw [List.getD_eq_getElem _ _ hi]
      exact hnm _ (List.getElem_mem hi)
    · rw [show (1 : Nat) + nm.length = nm.length + 1 from by omega, getC_cons_succ,
        getC_at nm _ 0 nm.length (by omega)]
      have hsp : getC (' ' :: tbody) 0 = ' ' := rfl
      rw [hsp]
      decide
  have hg2 : getC ('|' :: (nm ++ (' ' :: tbody))) (1 + nm.length + 1)
      = getC tbody 0 := by
    rw [show (1 : Nat) + nm.length + 1 = (nm.length + 1) + 1 from by omega,
      getC_cons_succ, getC_at nm _ 1 (nm.length + 1) (by omega)]
    rfl
  have hs2 : skipWhile isValueDelimiter ('|' :: (nm ++ (' ' :: tbody)))
      (1 + nm.length) = 1 + nm.length + 1 := by
    apply skipWhile_adds _ (by decide)
    · intro i hi
      have hi0 : i = 0 := by omega
      subst hi0
      rw [Nat.add_zero, show (1 : Nat) + nm.length = nm.length + 1 from by omega,
        getC_cons_succ, getC_at nm _ 0 nm.length (by omega)]
      have hsp : getC (' ' :: tbody) 0 = ' ' := rfl
      rw [hsp]
      decide
    · rw [show (1 : Nat) + nm.length + 1 = (nm.length + 1) + 1 from by omega,
        getC_cons_succ, getC_at nm _ 1 (nm.length + 1) (by omega)]
      have hsp : getC (' ' :: tbody) 1 = getC tbody 0 := rfl
      rw [hsp]
      exact isNumber_not_delim htb
  rw [GetName, if_neg (by rw [hg0]; decide)]
  simp only [Nat.zero_add]
  rw [hs1, hs2, hg2, if_neg (by simp [htb])]
  simp only [Option.some.injEq, Prod.mk.injEq]
  refine ⟨?_, by omega⟩
  exact bufSlice_middle2 ['|'] nm (' ' :: tbody) 1 (1 + nm.length)
    (by simp) (by simp)

/-- On a line `|name badtoken…` where the token fails `GetValue`, the inner
loop of `LoadSamples` fails: the sample fails at the bad token, and the
line cannot be read as a comment either, so the code clears the dataset
and throws. -/
theorem lineLoop_none_badline (fsize len id : Nat) (m : CTFMap) (n0 : Char)
    (nr tbody : List Char)
    (hnm : ∀ c ∈ n0 :: nr, (isDigit c || isAlpha c) = true)
    (htb : isNumber (getC tbody 0) = true)
    (hbad : GetValue ('|' :: ((n0 :: nr) ++ (' ' :: tbody)))
      ((n0 :: nr).length + 2) = none)
    (hlen : 0 < len)
    (hfsz : (n0 :: nr).length + 2 ≠ fsize) :
    lineLoop ('|' :: ((n0 :: nr) ++ (' ' :: tbody))) fsize len id 0 m = none := by
  have hgp : getC ('|' :: ((n0 :: nr) ++ (' ' :: tbody))) ((n0 :: nr).length + 2)
      = getC tbody 0 := by
    rw [show (n0 :: nr).length + 2 = ((n0 :: nr).length + 1) + 1 from by omega,
      getC_cons_succ, getC_at (n0 :: nr) _ 1 ((n0 :: nr).length + 1) (by omega)]
    rfl
  have hmore : moreValues ('|' :: ((n0 :: nr) ++ (' ' :: tbody))) fsize
      ((n0 :: nr).length + 2) = true := by
    unfold moreValues
    rw [hgp]
    simp only [List.length_cons] at hfsz
    simp [isCommentStart, isNumber_not_nameStart htb, isNumber_not_eol htb, hfsz]
  have hgv : GetValues ('|' :: ((n0 :: nr) ++ (' ' :: tbody))) fsize
      ((n0 :: nr).length + 2) = none := by
    rw [GetValues, GetValuesLoop_step, if_pos hmore, hbad]
  have hgs : GetSample ('|' :: ((n0 :: nr) ++ (' ' :: tbody))) fsize 0 = none := by
    simp only [GetSample, GetName_badline (n0 :: nr) tbody hnm htb, hgv]
  have hgc : GetComment ('|' :: ((n0 :: nr) ++ (' ' :: tbody))) 0 = none := by
    have hg1 : getC ('|' :: ((n0 :: nr) ++ (' ' :: tbody))) (0 + 1) = n0 := rfl
    have hg0c : getC ('|' :: ((n0 :: nr) ++ (' ' :: tbody))) 0 = '|' := rfl
    rw [GetComment, if_neg (by rw [hg0c]; decide),
      if_pos (by rw [hg1]; simp [digitAlpha_not_hash (hnm n0 (by simp))])]
  rw [lineLoop_step _ _ _ _ _ _, if_pos hlen, hgs, hgc]

/-- When one line of the file always fails the inner loop, the outer loop
of `LoadSamples` fails no matter what state it reaches that line in. -/
theorem loadLoop_none_of_bad (fsize : Nat) (bad : List Char)
    (hbad : ∀ id m, lineLoop (lineBufAfterId (toBuffer bad)) fsize
      (toBuffer bad).length id (linePos0 (toBuffer bad)) m = none) :
    ∀ (pre post : List (List Char)) (prev : Nat) (hasInit : Bool) (m : CTFMap),
      loadLoop fsize (pre ++ bad :: post) prev hasInit m = none := by
  intro pre
  induction pre with
  | nil =>
    intro post prev hasInit m
    simp only [List.nil_append, loadLoop]
    rw [hbad]
  | cons l ls ih =>
    intro post prev hasInit m
    simp only [List.cons_append, loadLoop]
    cases h : lineLoop (lineBufAfterId (toBuffer l)) fsize (toBuffer l).length
        (stepSeqId (toBuffer l) prev hasInit).1 (linePos0 (toBuffer l)) m with
    | none => rfl
    | some m2 => exact ih post _ _ m2

theorem fileSize_mem_le (pre post : List (List Char)) (l : List Char) :
    l.length + 1 ≤ fileSize (pre ++ l :: post) := by
  simp only [fileSize, List.map_append, List.map_cons, List.sum_append,
    List.sum_cons]
  omega

/-- Claim C2: a file holding a value token with two decimal points (here a
digit run, a point, a digit run, a second point) or two sign characters
(a sign, a digit run, a second sign) after a sample name fails to parse:
`LoadSamples` throws, and since the code clears the sequence map right
before its throw, the dataset left behind is empty — no partial dataset
survives. -/
theorem c2_malformed_value_fails (pre post : List (List Char)) (n0 : Char)
    (nr tok : List Char)
    (hnm : ∀ c ∈ n0 :: nr, (isDigit c || isAlpha c) = true)
    (htok : (∃ d1 d2 r, (∀ c ∈ d1, isDigit c = true) ∧ d1 ≠ [] ∧
               (∀ c ∈ d2, isDigit c = true) ∧
               tok = d1 ++ ('.' :: (d2 ++ ('.' :: r)))) ∨
            (∃ s1 d s2 r, isSign s1 = true ∧ isSign s2 = true ∧
               (∀ c ∈ d, isDigit c = true) ∧
               tok = s1 :: (d ++ (s2 :: r)))) :
    LoadSamples (pre ++ ('|' :: ((n0 :: nr) ++ (' ' :: tok))) :: post) = none ∧
    datasetAfterParse (pre ++ ('|' :: ((n0 :: nr) ++ (' ' :: tok))) :: post)
      = [] := by
  have hkey : isNumber (getC (tok ++ ['\n']) 0) = true ∧
      GetValue ('|' :: ((n0 :: nr) ++ (' ' :: (tok ++ ['\n']))))
        ((n0 :: nr).length + 2) = none := by
    rcases htok with ⟨d1, d2, r, hd1, hd1ne, hd2, htk⟩ |
      ⟨s1, d, s2, r, hs1, hs2, hd, htk⟩
    · subst htk
      obtain ⟨c1, d1r, rfl⟩ : ∃ c1 rr, d1 = c1 :: rr := by
        cases d1 with
        | nil => exact absurd rfl hd1ne
        | cons x xs => exact ⟨x, xs, rfl⟩
      constructor
      · rw [show getC ((((c1 :: d1r) ++ ('.' :: (d2 ++ ('.' :: r)))) ++ ['\n']))
            0 = c1 from rfl]
        exact isDigit_isNumber (hd1 c1 (by simp))
      · rw [show ('|' :: ((n0 :: nr) ++
            (' ' :: (((c1 :: d1r) ++ ('.' :: (d2 ++ ('.' :: r)))) ++ ['\n']))))
            = ('|' :: ((n0 :: nr) ++ [' '])) ++
              ((c1 :: d1r) ++ ('.' :: (d2 ++ ('.' :: (r ++ ['\n'])))))
            from by simp]
        exact GetValue_none_two_points ('|' :: ((n0 :: nr) ++ [' ']))
          (c1 :: d1r) d2 (r ++ ['\n']) _ (by simp) hd1 (by simp) hd2
    · subst htk
      constructor
      · rw [show getC ((s1 :: (d ++ (s2 :: r))) ++ ['\n']) 0 = s1 from rfl]
        exact isSign_isNumber hs1
      · rw [show ('|' :: ((n0 :: nr) ++ (' ' :: ((s1 :: (d ++ (s2 :: r))) ++ ['\n']))))
            = ('|' :: ((n0 :: nr) ++ [' '])) ++
              (s1 :: (d ++ (s2 :: (r ++ ['\n'])))) from by simp]
        exact GetValue_none_two_signs ('|' :: ((n0 :: nr) ++ [' ']))
          d (r ++ ['\n']) s1 s2 _ (by simp) hs1 hs2 hd
  have hseq : GetSequenceId (toBuffer ('|' :: ((n0 :: nr) ++ (' ' :: tok))))
      = none := by
    have h0 : getC (toBuffer ('|' :: ((n0 :: nr) ++ (' ' :: tok)))) 0 = '|' := rfl
    rw [GetSequenceId, h0, if_pos (by decide)]
  have hlbuf : lineBufAfterId (toBuffer ('|' :: ((n0 :: nr) ++ (' ' :: tok))))
      = toBuffer ('|' :: ((n0 :: nr) ++ (' ' :: tok))) := by
    rw [lineBufAfterId, hseq]
  have hpos0 : linePos0 (toBuffer ('|' :: ((n0 :: nr) ++ (' ' :: tok)))) = 0 := by
    rw [linePos0, hseq]
  have hshape : toBuffer ('|' :: ((n0 :: nr) ++ (' ' :: tok)))
      = '|' :: ((n0 :: nr) ++ (' ' :: (tok ++ ['\n']))) := by
    simp [toBuffer]
  have hfsz : (n0 :: nr).length + 2
      ≠ fileSize (pre ++ ('|' :: ((n0 :: nr) ++ (' ' :: tok))) :: post) := by
    have hle := fileSize_mem_le pre post ('|' :: ((n0 :: nr) ++ (' ' :: tok)))
    simp only [List.length_cons, List.length_append] at hle ⊢
    omega
  have hload : LoadSamples (pre ++ ('|' :: ((n0 :: nr) ++ (' ' :: tok))) :: post)
      = none := by
    rw [LoadSamples, loadLoop_none_of_bad _ _ ?hb pre post 0 false []]
    case hb =>
      intro id m
      rw [hlbuf, hpos0, hshape]
      exact lineLoop_none_badline _ _ id m n0 nr (tok ++ ['\n']) hnm hkey.1 hkey.2
        (by simp) (by
          have := hfsz
          simpa using this)
  exact ⟨hload, by rw [datasetAfterParse, hload]⟩

theorem c2_malformed_value_fails_witness :
    LoadSamples [['|', 'a', ' ', '1', '.', '.', '2']] = none ∧
    datasetAfterParse [['|', 'a', ' ', '1', '.', '.', '2']] = [] := by
  have h := c2_malformed_value_fails [] [] 'a' [] ['1', '.', '.', '2']
    (by decide)
    (Or.inl ⟨['1'], [], ['2'], by decide, by decide, by decide, by decide⟩)
  exact h

/-! ## Claim C5: implicit lines fold into the preceding explicit sequence -/

/-- `std::map::find` on the modelled map: the sequence stored under a key. -/
def mapFind (m : CTFMap) (k : Nat) : Option CTFSequence :=
  match m with
  | [] => none
  | (k1, v) :: rest => if k == k1 then some v else mapFind rest k

theorem mapFind_none_of_lt (m : CTFMap) (k : Nat) (h : ∀ p ∈ m, k < p.1) :
    mapFind m k = none := by
  induction m with
  | nil => rfl
  | cons p rest ih =>
    obtain ⟨k1, v⟩ := p
    have hk1 := h (k1, v) (by simp)
    simp only [mapFind, show (k == k1) = false from by simp; omega,
      Bool.false_eq_true, if_false]
    exact ih (fun q hq => h q (by simp [hq]))

theorem mapFind_mapUpd_other (m : CTFMap) (k k' : Nat)
    (f : CTFSequence → CTFSequence) (hne : k' ≠ k) :
    mapFind (mapUpd m k f) k' = mapFind m k' := by
  induction m with
  | nil => simp [mapUpd, mapFind, show (k' == k) = false from by simp [hne]]
  | cons p rest ih =>
    obtain ⟨k1, v⟩ := p
    by_cases h1 : k < k1
    · simp [mapUpd, if_pos h1, mapFind, show (k' == k) = false from by simp [hne]]
    · by_cases h2 : k = k1
      · subst h2
        simp [mapUpd, if_neg h1, mapFind,
          show (k' == k) = false from by simp [hne]]
      · simp only [mapUpd, if_neg h1, show (k == k1) = false from by simp [h2],
          Bool.false_eq_true, if_false, mapFind]
        by_cases h3 : k' = k1
        · simp [h3]
        · simp only [show (k' == k1) = false from by simp [h3],
            Bool.false_eq_true, if_false]
          exact ih

theorem mapFind_mapUpd_self (m : CTFMap) (k : Nat)
    (f : CTFSequence → CTFSequence)
    (hs : List.Pairwise (fun a b => a.1 < b.1) m) :
    mapFind (mapUpd m k f) k = some (f ((mapFind m k).getD defaultSeq)) := by
  induction m with
  | nil => simp [mapUpd, mapFind]
  | cons p rest ih =>
    obtain ⟨k1, v⟩ := p
    rcases List.pairwise_cons.1 hs with ⟨hhead, htail⟩
    by_cases h1 : k < k1
    · have hnone : mapFind rest k = none :=
        mapFind_none_of_lt rest k (fun q hq => Nat.lt_trans h1 (hhead q hq))
      simp [mapUpd, if_pos h1, mapFind, show (k == k1) = false from by simp; omega,
        hnone]
    · by_cases h2 : k = k1
      · subst h2
        simp [mapUpd, if_neg h1, mapFind]
      · simp only [mapUpd, if_neg h1, show (k == k1) = false from by simp [h2],
          Bool.false_eq_true, if_false, mapFind]
        exact ih htail

/-- One dataset mutation of the inner loop (all three go through
`sequences[id]`): keys other than `id` keep their records, and the record
under `id` keeps its samples as a prefix. -/
theorem mapStep_facts (m : CTFMap) (id : Nat) (m' : CTFMap)
    (hs : List.Pairwise (fun a b => a.1 < b.1) m)
    (hm' : m' = mapEnsure m id ∨ (∃ s, m' = mapPush (mapEnsure m id) id s) ∨
      (∃ c, m' = mapSetComment (mapEnsure m id) id c)) :
    List.Pairwise (fun a b => a.1 < b.1) m' ∧
    (∀ k, k ≠ id → mapFind m' k = mapFind m k) ∧
    ∃ app, ((mapFind m' id).getD defaultSeq).samples
        = ((mapFind m id).getD defaultSeq).samples ++ app := by
  have hens : mapFind (mapEnsure m id) id
      = some ({ (mapFind m id).getD defaultSeq with sequence_id := id }) :=
    mapFind_mapUpd_self m id _ hs
  have hpens : List.Pairwise (fun a b => a.1 < b.1) (mapEnsure m id) :=
    mapUpd_pairwise m id _ hs
  rcases hm' with rfl | ⟨s, rfl⟩ | ⟨c, rfl⟩
  · refine ⟨hpens, fun k hk => mapFind_mapUpd_other m id k _ hk, [], ?_⟩
    rw [hens]
    simp
  · refine ⟨mapUpd_pairwise _ id _ hpens,
      fun k hk => (mapFind_mapUpd_other _ id k _ hk).trans
        (mapFind_mapUpd_other m id k _ hk), [s], ?_⟩
    rw [show mapPush (mapEnsure m id) id s
        = mapUpd (mapEnsure m id) id
          (fun r => { r with samples := r.samples ++ [s] }) from rfl,
      mapFind_mapUpd_self _ id _ hpens, hens]
    simp
  · refine ⟨mapUpd_pairwise _ id _ hpens,
      fun k hk => (mapFind_mapUpd_other _ id k _ hk).trans
        (mapFind_mapUpd_other m id k _ hk), [], ?_⟩
    rw [show mapSetComment (mapEnsure m id) id c
        = mapUpd (mapEnsure m id) id (fun r => { r with comment := c }) from rfl,
      mapFind_mapUpd_self _ id _ hpens, hens]
    simp

/-- Over one whole line, the inner loop only ever touches the record under
its sequence id, and only ever appends to that record's sample list. -/
theorem lineLoopAux_samples (buf : List Char) (fsize len id : Nat) :
    ∀ fuel pos m m2, List.Pairwise (fun a b => a.1 < b.1) m →
      lineLoopAux buf fsize len id fuel pos m = some m2 →
      (List.Pairwise (fun a b => a.1 < b.1) m2 ∧
        ∀ k, k ≠ id → mapFind m2 k = mapFind m k) ∧
      ∃ app, ((mapFind m2 id).getD defaultSeq).samples
          = ((mapFind m id).getD defaultSeq).samples ++ app := by
  intro fuel
  induction fuel with
  | zero =>
    intro pos m m2 hs h
    simp only [lineLoopAux] at h
    split at h
    · exact absurd h (by simp)
    · simp only [Option.some.injEq] at h
      subst h
      exact ⟨⟨hs, fun _ _ => rfl⟩, [], by simp⟩
  | succ n ih =>
    intro pos m m2 hs h
    simp only [lineLoopAux] at h
    split at h
    · cases hsGS : GetSample buf fsize pos with
      | some x =>
        obtain ⟨sample, p2⟩ := x
        rw [hsGS] at h
        have hm' : (if sample.input_name.isEmpty then mapEnsure m id
              else mapPush (mapEnsure m id) id sample) = mapEnsure m id ∨
            (∃ s, (if sample.input_name.isEmpty then mapEnsure m id
              else mapPush (mapEnsure m id) id sample)
                = mapPush (mapEnsure m id) id s) ∨
            (∃ c, (if sample.input_name.isEmpty then mapEnsure m id
              else mapPush (mapEnsure m id) id sample)
                = mapSetComment (mapEnsure m id) id c) := by
          rcases Bool.eq_false_or_eq_true sample.input_name.isEmpty with he | he
          · left; simp [he]
          · right; left; exact ⟨sample, by simp [he]⟩
        obtain ⟨hp1, ho1, app0, happ0⟩ := mapStep_facts m id _ hs hm'
        obtain ⟨⟨hp2, ho2⟩, app1, happ1⟩ := ih p2 _ m2 hp1 h
        exact ⟨⟨hp2, fun k hk => (ho2 k hk).trans (ho1 k hk)⟩, app0 ++ app1,
          by rw [happ1, happ0, List.append_assoc]⟩
      | none =>
        rw [hsGS] at h
        cases hC : GetComment buf pos with
        | none =>
          rw [hC] at h
          simp at h
        | some x =>
          obtain ⟨comment, p2⟩ := x
          rw [hC] at h
          have hm' : (if comment.isEmpty then mapEnsure m id
                else mapSetComment (mapEnsure m id) id comment) = mapEnsure m id ∨
              (∃ s, (if comment.isEmpty then mapEnsure m id
                else mapSetComment (mapEnsure m id) id comment)
                  = mapPush (mapEnsure m id) id s) ∨
              (∃ c, (if comment.isEmpty then mapEnsure m id
                else mapSetComment (mapEnsure m id) id comment)
                  = mapSetComment (mapEnsure m id) id c) := by
            rcases Bool.eq_false_or_eq_true comment.isEmpty with he | he
            · left; simp [he]
            · right; right; exact ⟨comment, by simp [he]⟩
          obtain ⟨hp1, ho1, app0, happ0⟩ := mapStep_facts m id _ hs hm'
          obtain ⟨⟨hp2, ho2⟩, app1, happ1⟩ := ih p2 _ m2 hp1 h
          exact ⟨⟨hp2, fun k hk => (ho2 k hk).trans (ho1 k hk)⟩, app0 ++ app1,
            by rw [happ1, happ0, List.append_assoc]⟩
    · simp only [Option.some.injEq] at h
      subst h
      exact ⟨⟨hs, fun _ _ => rfl⟩, [], by simp⟩

theorem lineLoop_samples {buf : List Char} {fsize len id pos : Nat}
    {m m2 : CTFMap} (hs : List.Pairwise (fun a b => a.1 < b.1) m)
    (h : lineLoop buf fsize len id pos m = some m2) :
    (List.Pairwise (fun a b => a.1 < b.1) m2 ∧
      ∀ k, k ≠ id → mapFind m2 k = mapFind m k) ∧
    ∃ app, ((mapFind m2 id).getD defaultSeq).samples
        = ((mapFind m id).getD defaultSeq).samples ++ app :=
  lineLoopAux_samples buf fsize len id (len - pos) pos m m2 hs h

theorem loadLoop_append (fsize : Nat) :
    ∀ (pre rest : List (List Char)) (prev : Nat) (hasInit : Bool) (m : CTFMap),
      loadLoop fsize (pre ++ rest) prev hasInit m =
        match loadLoop fsize pre prev hasInit m with
        | none => none
        | some (m2, p2, i2) => loadLoop fsize rest p2 i2 m2 := by
  intro pre
  induction pre with
  | nil =>
    intro rest prev hasInit m
    simp only [List.nil_append, loadLoop]
  | cons l ls ih =>
    intro rest prev hasInit m
    simp only [List.cons_append, loadLoop]
    cases h : lineLoop (lineBufAfterId (toBuffer l)) fsize (toBuffer l).length
        (stepSeqId (toBuffer l) prev hasInit).1 (linePos0 (toBuffer l)) m with
    | none => rfl
    | some m2 => exact ih rest _ _ m2

/-- Over a run of lines none of which carries an explicit id, entered with
the explicit id `S` established, every line is folded into the record under
`S`: other keys keep their records and the samples under `S` only grow. -/
theorem loadLoop_implicit_seg (fsize S : Nat) :
    ∀ (ls : List (List Char)) (m mf : CTFMap) (p2 : Nat) (i2 : Bool),
      (∀ l ∈ ls, GetSequenceId (toBuffer l) = none) →
      List.Pairwise (fun a b => a.1 < b.1) m →
      loadLoop fsize ls S true m = some (mf, p2, i2) →
      (∀ k, k ≠ S → mapFind mf k = mapFind m k) ∧
      ∃ app, ((mapFind mf S).getD defaultSeq).samples
          = ((mapFind m S).getD defaultSeq).samples ++ app := by
  intro ls
  induction ls with
  | nil =>
    intro m mf p2 i2 _ _ h
    simp only [loadLoop, Option.some.injEq, Prod.mk.injEq] at h
    obtain ⟨rfl, -, -⟩ := h
    exact ⟨fun _ _ => rfl, [], by simp⟩
  | cons l ls ih =>
    intro m mf p2 i2 hI hs h
    have hstep : stepSeqId (toBuffer l) S true = (S, true) := by
      simp [stepSeqId, hI l (by simp)]
    simp only [loadLoop, hstep] at h
    cases hl : lineLoop (lineBufAfterId (toBuffer l)) fsize (toBuffer l).length S
        (linePos0 (toBuffer l)) m with
    | none =>
      rw [hl] at h
      simp at h
    | some m1 =>
      rw [hl] at h
      obtain ⟨⟨hp1, ho1⟩, app0, happ0⟩ := lineLoop_samples hs hl
      obtain ⟨ho2, app1, happ1⟩ := ih m1 mf p2 i2
        (fun x hx => hI x (by simp [hx])) hp1 h
      exact ⟨fun k hk => (ho2 k hk).trans (ho1 k hk), app0 ++ app1,
        by rw [happ1, happ0, List.append_assoc]⟩

/-- Claim C5: in a file where a line with an explicit sequence id `S` is
followed by lines without explicit ids, all of those lines are folded into
the sequence record under `S`: relative to the dataset state reached just
before the explicit line, every other key's record is untouched and the
record under `S` has its original samples as a prefix — samples are
appended, never replaced. -/
theorem c5_explicit_then_implicit (pre ilines : List (List Char))
    (eline : List Char) (S p0 : Nat) (b0 : List Char)
    (hE : GetSequenceId (toBuffer eline) = some (S, p0, b0))
    (hI : ∀ l ∈ ilines, GetSequenceId (toBuffer l) = none)
    (m : CTFMap) (prev : Nat) (hasInit : Bool)
    (hpre : loadLoop (fileSize (pre ++ eline :: ilines)) pre 0 false []
      = some (m, prev, hasInit))
    (mf : CTFMap) (prev2 : Nat) (i2 : Bool)
    (hall : loadLoop (fileSize (pre ++ eline :: ilines)) (pre ++ eline :: ilines)
      0 false [] = some (mf, prev2, i2)) :
    (∀ k, k ≠ S → mapFind mf k = mapFind m k) ∧
    ∃ app, ((mapFind mf S).getD defaultSeq).samples
        = ((mapFind m S).getD defaultSeq).samples ++ app := by
  rw [loadLoop_append _ pre (eline :: ilines) 0 false [], hpre] at hall
  have hall2 : loadLoop (fileSize (pre ++ eline :: ilines)) (eline :: ilines)
      prev hasInit m = some (mf, prev2, i2) := hall
  have hstepE : stepSeqId (toBuffer eline) prev hasInit = (S, true) := by
    simp [stepSeqId, hE]
  simp only [loadLoop, hstepE] at hall2
  have hmp : List.Pairwise (fun a b => a.1 < b.1) m := by
    have := loadLoop_preserves (fileSize (pre ++ eline :: ilines))
      (List.Pairwise (fun a b => a.1 < b.1))
      (fun m id hp => mapUpd_pairwise m id _ hp)
      (fun m id s hp => mapUpd_pairwise _ id _ (mapUpd_pairwise m id _ hp))
      (fun m id c hp => mapUpd_pairwise _ id _ (mapUpd_pairwise m id _ hp))
      pre 0 false [] (m, prev, hasInit) (by simp) hpre
    exact this
  cases hl : lineLoop (lineBufAfterId (toBuffer eline))
      (fileSize (pre ++ eline :: ilines)) (toBuffer eline).length S
      (linePos0 (toBuffer eline)) m with
  | none =>
    rw [hl] at hall2
    simp at hall2
  | some m1 =>
    rw [hl] at hall2
    obtain ⟨⟨hp1, ho1⟩, app0, happ0⟩ := lineLoop_samples hmp hl
    obtain ⟨ho2, app1, happ1⟩ := loadLoop_implicit_seg
      (fileSize (pre ++ eline :: ilines)) S ilines m1 mf prev2 i2 hI hp1 hall2
    exact ⟨fun k hk => (ho2 k hk).trans (ho1 k hk), app0 ++ app1,
      by rw [happ1, happ0, List.append_assoc]⟩

def c5File : List (List Char) := [['7', ' ', '|', 'a', ' ', '1'], ['|', 'b', ' ', '2']]

def c5Map : CTFMap :=
  [(7, { sequence_id := 7,
         samples := [{ input_name := ['a'],
                       values := [{ type := CTFValueType.Int16, value := 1,
                                    index := SIZE_MAX }] },
                     { input_name := ['b'],
                       values := [{ type := CTFValueType.Int16, value := 2,
                                    index := SIZE_MAX }] }],
         comment := [] })]


theorem c5_explicit_then_implicit_witness :
    (∀ k, k ≠ 7 → mapFind c5Map k = mapFind ([] : CTFMap) k) ∧
    ∃ app, ((mapFind c5Map 7).getD defaultSeq).samples
        = ((mapFind ([] : CTFMap) 7).getD defaultSeq).samples ++ app :=
  c5_explicit_then_implicit [] [['|', 'b', ' ', '2']] ['7', ' ', '|', 'a', ' ', '1']
    7 2 ['7', Char.ofNat 0, '|', 'a', ' ', '1', '\n']
    (by decide) (by decide) [] 0 false rfl c5Map 7 true (by decide)

/-! ## Claim C6: the comment scan's quote parity and stop position -/

/-- The number of quote characters at the positions in `(beg, e]`: exactly
the positions at which `GetComment`'s loop, started at `beg`, updates its
quote counter (the loop steps onto `beg + 1, beg + 2, …`; the character at
`beg` itself is never examined). -/
def quotesBetween (buf : List Char) (beg e : Nat) : Nat :=
  ((List.range' (beg + 1) (e - beg)).filter
    (fun i => isEscapeDelimiter (getC buf i))).length

/-- An embedded name marker that stops the comment: a `|` strictly after
the first comment character, seen with an even quote count. -/
def markerStop (buf : List Char) (beg e : Nat) : Bool :=
  decide (beg < e) && isNameStart (getC buf e) && quotesBetween buf beg e % 2 == 0

/-- A position at which the comment scan stops: an EOL, or an embedded
marker with even quote parity. -/
def commentStopB (buf : List Char) (beg e : Nat) : Bool :=
  isEOL (getC buf e) || markerStop buf beg e

theorem quotesBetween_succ (buf : List Char) (beg runner : Nat)
    (h : beg ≤ runner) :
    quotesBetween buf beg (runner + 1)
      = qcStep buf (runner + 1) (quotesBetween buf beg runner) := by
  unfold quotesBetween qcStep
  rw [show runner + 1 - beg = (runner - beg) + 1 from by omega,
    List.range'_concat, show beg + 1 + 1 * (runner - beg) = runner + 1 from by omega,
    List.filter_append, List.length_append]
  by_cases hq : isEscapeDelimiter (getC buf (runner + 1)) = true
  · simp [hq]
  · simp [List.filter_cons, hq]

/-- The comment scan stops at the least stop position: an induction along
the loop, carrying the invariant that no earlier position stops the scan
and that the current position is not an embedded-marker stop. -/
theorem commentLoopAux_least (buf : List Char) (beg : Nat) :
    ∀ fuel runner, beg ≤ runner →
      buf.length - runner ≤ fuel →
      (∀ e, beg ≤ e → e < runner → commentStopB buf beg e = false) →
      markerStop buf beg runner = false →
      (∃ e0, runner ≤ e0 ∧ isEOL (getC buf e0) = true) →
      beg ≤ commentLoopAux buf fuel runner (quotesBetween buf beg runner) ∧
      commentStopB buf beg
        (commentLoopAux buf fuel runner (quotesBetween buf beg runner)) = true ∧
      ∀ e, beg ≤ e →
        e < commentLoopAux buf fuel runner (quotesBetween buf beg runner) →
        commentStopB buf beg e = false := by
  intro fuel
  induction fuel with
  | zero =>
    intro runner hbr hfuel hprior hmark hE
    obtain ⟨e0, he0r, he0⟩ := hE
    have he0lt : e0 < buf.length := getC_lt_of_pred (by decide) he0
    omega
  | succ n ih =>
    intro runner hbr hfuel hprior hmark hE
    obtain ⟨e0, he0r, he0⟩ := hE
    have he0lt : e0 < buf.length := getC_lt_of_pred (by decide) he0
    simp only [commentLoopAux]
    by_cases hEOL : isEOL (getC buf runner) = true
    · rw [if_pos hEOL]
      exact ⟨hbr, by simp [commentStopB, hEOL], hprior⟩
    · rw [if_neg hEOL]
      have hEOLf : isEOL (getC buf runner) = false := by simpa using hEOL
      have hne : runner ≠ e0 := by
        intro hcon
        rw [hcon, he0] at hEOLf
        exact absurd hEOLf (by simp)
      have hrunlt : runner < buf.length := by omega
      rw [← quotesBetween_succ buf beg runner hbr]
      have hprior2 : ∀ e, beg ≤ e → e < runner + 1 →
          commentStopB buf beg e = false := by
        intro e hbe helt
        rcases Nat.lt_succ_iff_lt_or_eq.1 helt with hlt | rfl
        · exact hprior e hbe hlt
        · simp [commentStopB, hEOLf, hmark]
      by_cases hM : (isNameStart (getC buf (runner + 1))
          && quotesBetween buf beg (runner + 1) % 2 == 0) = true
      · rw [if_pos hM]
        rw [Bool.and_eq_true] at hM
        obtain ⟨hname, hpar⟩ := hM
        refine ⟨by omega, ?_, hprior2⟩
        simp [commentStopB, markerStop, hname, hpar]
        omega
      · rw [if_neg hM]
        have hMf : (isNameStart (getC buf (runner + 1))
            && quotesBetween buf beg (runner + 1) % 2 == 0) = false := by
          simpa using hM
        have hmark2 : markerStop buf beg (runner + 1) = false := by
          simp only [markerStop]
          cases hn : isNameStart (getC buf (runner + 1)) with
          | false => simp [hn]
          | true =>
            have hp : (quotesBetween buf beg (runner + 1) % 2 == 0) = false := by
              rw [hn] at hMf
              simpa using hMf
            simp [hp]
        exact ih (runner + 1) (by omega) (by omega) hprior2 hmark2
          ⟨e0, by omega, he0⟩

/-- Claim C6 (amended): for a comment starting at `|#` on a line that ends
with an EOL character, the comment runs from the first comment character
`beg = pos + 2` to the least position that is an EOL, or an embedded name
marker strictly after `beg` seen with an even quote count — where the
quote count includes exactly the characters at positions after `beg` (the
first comment character is never examined, so a quote there is never
counted); at a marker stop the last comment character is overwritten with
NUL before the comment string is extracted (`commentContent`). -/
theorem c6_comment_quote_parity (buf : List Char) (pos : Nat)
    (h0 : isCommentStart (getC buf pos) = true)
    (h1 : isCommentSuffix (getC buf (pos + 1)) = true)
    (hE : ∃ e0, pos + 2 ≤ e0 ∧ isEOL (getC buf e0) = true) :
    GetComment buf pos = some
      (commentContent buf (pos + 2) (commentLoop buf (pos + 2) 0),
       skipWhile isEOL buf (commentLoop buf (pos + 2) 0)) ∧
    pos + 2 ≤ commentLoop buf (pos + 2) 0 ∧
    commentStopB buf (pos + 2) (commentLoop buf (pos + 2) 0) = true ∧
    ∀ e, pos + 2 ≤ e → e < commentLoop buf (pos + 2) 0 →
      commentStopB buf (pos + 2) e = false := by
  have hq0 : quotesBetween buf (pos + 2) (pos + 2) = 0 := by
    simp [quotesBetween]
  have h := commentLoopAux_least buf (pos + 2) (buf.length - (pos + 2)) (pos + 2)
    (Nat.le_refl _) (Nat.le_refl _) (fun e hb hl => absurd hl (by omega))
    (by simp [markerStop]) hE
  rw [hq0] at h
  refine ⟨?_, h.1, h.2.1, h.2.2⟩
  rw [GetComment, if_neg (by simp [h0]), if_neg (by simp [h1])]

theorem c6_comment_quote_parity_witness :
    GetComment c6Buf 0 = some
      (commentContent c6Buf 2 (commentLoop c6Buf 2 0),
       skipWhile isEOL c6Buf (commentLoop c6Buf 2 0)) ∧
    2 ≤ commentLoop c6Buf 2 0 ∧
    commentStopB c6Buf 2 (commentLoop c6Buf 2 0) = true ∧
    ∀ e, 2 ≤ e → e < commentLoop c6Buf 2 0 → commentStopB c6Buf 2 e = false :=
  c6_comment_quote_parity c6Buf 0 (by decide) (by decide) ⟨7, by decide, by decide⟩

/-! ## Claim C9: the render / re-parse round trip -/

/-- A representative valid file whose values (integers of magnitude below
`10^6`, and a sparse index) render back verbatim under `%g` formatting. -/
def c9GoodFile : List (List Char) :=
  [['7', ' ', '|', 'a', ' ', '1', ' ', '2', ':', '3'], ['|', 'b', ' ', '4']]

/-- The parse of `c9GoodFile`: one sequence holding both samples. -/
def c9GoodMap : CTFMap :=
  [(7, { sequence_id := 7,
         samples := [{ input_name := ['a'],
                       values := [{ type := CTFValueType.Int16, value := 1,
                                    index := SIZE_MAX },
                                  { type := CTFValueType.Int16, value := 3,
                                    index := 2 }] },
                     { input_name := ['b'],
                       values := [{ type := CTFValueType.Int16, value := 4,
                                    index := SIZE_MAX }] }],
         comment := [] })]

set_option maxHeartbeats 800000 in
/-- Claim C9 (amended): the render / re-parse round trip holds exactly
when every value renders to a token that re-parses to the same value — as
in this representative dataset (integer values below `10^6`, including a
sparse index), where re-parsing the rendered text yields the same
sequence map, hence a structurally equal dataset.  It fails in general:
`%g` formatting renders the integer `10^6` as `1e+06`, whose re-parse
stops the token at `e` (see the counterexample). -/
theorem c9_round_trip_representative :
    (LoadSamples c9GoodFile).isSome = true ∧
    LoadSamples (splitLines (renderDataset (datasetAfterParse c9GoodFile)))
      = LoadSamples c9GoodFile ∧
    ctfDatasetEq
      (datasetAfterParse (splitLines (renderDataset (datasetAfterParse c9GoodFile))))
      (datasetAfterParse c9GoodFile) = true := by
  have hparse : LoadSamples c9GoodFile = some c9GoodMap := by decide
  have hds : datasetAfterParse c9GoodFile = c9GoodMap := by decide
  have hrender : renderDataset c9GoodMap
      = ['7', ' ', '|', 'a', ' ', '1', ' ', '2', ':', '3', ' ', ' ',
         '|', 'b', ' ', '4', ' ', '\n'] := by
    with_unfolding_all decide
  have hsplit : splitLines (['7', ' ', '|', 'a', ' ', '1', ' ', '2', ':', '3',
      ' ', ' ', '|', 'b', ' ', '4', ' ', '\n'] : List Char)
      = [['7', ' ', '|', 'a', ' ', '1', ' ', '2', ':', '3', ' ', ' ',
          '|', 'b', ' ', '4', ' ']] := by decide
  have hback : LoadSamples [['7', ' ', '|', 'a', ' ', '1', ' ', '2', ':', '3',
      ' ', ' ', '|', 'b', ' ', '4', ' ']] = some c9GoodMap := by decide
  have heq : ctfDatasetEq (datasetAfterParse [['7', ' ', '|', 'a', ' ', '1',
      ' ', '2', ':', '3', ' ', ' ', '|', 'b', ' ', '4', ' ']]) c9GoodMap
      = true := by decide
  refine ⟨by decide, ?_, ?_⟩
  · rw [hds, hrender, hsplit, hback, hparse]
  · rw [hds, hrender, hsplit]
    exact heq
